import Mathlib

/-!
# taskflow-worker: job lifecycle, priority queue and worker step

A shallow embedding of `internal/job/job.go`, `internal/queue/queue.go`,
`internal/worker/worker.go` and `internal/handler/handler.go`, followed by the
properties established about them.

Modelling conventions.

* `time.Time` values are represented by their `UnixNano()` reading (an `Int`);
  every call of `time.Now()` in the source becomes an explicit clock argument.
* Go `int` is the 64-bit signed integer; `Attempts++` wraps accordingly.
* `float64` values that occur in the score computation are integer valued; they
  are represented by that integer and every arithmetic operation rounds its exact
  result to 53 significant bits, ties to even (IEEE 754 binary64), each operation
  on its own.  For priorities up to 9007 the product with `1e12` is exact, so a
  fused multiply-subtract would give the same score.  All magnitudes that can
  occur are far below the overflow threshold.
* The Redis server is a pure state: a string keyspace, a sorted-set keyspace and
  a schedule of injected connection faults (one slot consumed per command).
  Record keys (`<pfx>:data:<id>`) and index keys (`<pfx>:queue:<type>`) never
  coincide, which is why the two keyspaces are kept apart.
* `encoding/json` lies outside the repository.  A `json.RawMessage` is represented
  by its bytes together with what the encoder makes of them: nothing when they are
  not valid JSON (then `json.Marshal` of the job fails), otherwise the compacted
  text the encoder writes.  On all other fields kept in the model the encoding of a
  `Job` is lossless, so a stored value is either the encoding of a job, carrying
  the compacted payload, or bytes that do not decode.
* The 24 hour expiry of record keys is not modelled as the passage of time; an
  expired record is a server state in which the key is absent.
* Handlers read the job they are given and return `nil` or an error; all
  handlers of the repository only decode `j.Payload`.
* Logging, sleeping and cancellation are left out; goroutines are not modelled,
  a worker step is one sequential run of `processOne`.
-/

namespace Taskflow

/-! ## float64 arithmetic on integer values -/

/-- Auxiliary loop for `bitLen`: number of binary digits, bounded by the fuel. -/
def bitLenAux : Nat → Nat → Nat
  | 0, _ => 0
  | fuel + 1, n => if n = 0 then 0 else bitLenAux fuel (n / 2) + 1

/-- Number of binary digits of `n` (`0` for `0`). -/
def bitLen (n : Nat) : Nat := bitLenAux n n

/-- Spacing of binary64 values around the magnitude `n`: `1` up to 53 digits,
and `2 ^ (digits - 53)` beyond. -/
def ulp (n : Nat) : Nat := 2 ^ (bitLen n - 53)

/-- Round a magnitude to 53 significant bits, nearest, ties to even. -/
def roundNat (n : Nat) : Nat :=
  let u := ulp n
  let q := n / u
  let r := n % u
  if 2 * r < u then q * u
  else if u < 2 * r then (q + 1) * u
  else if q % 2 = 0 then q * u else (q + 1) * u

/-- The binary64 value nearest to the integer `x` (rounding is symmetric in the
sign).  This is Go's conversion `float64(x)` and also the rounding applied to the
exact result of every float operation below. -/
def float64 (x : Int) : Int :=
  if 0 ≤ x then (roundNat x.toNat : Int) else -(roundNat (-x).toNat : Int)

/-- Product of two (integer valued) binary64 numbers. -/
def fmul (a b : Int) : Int := float64 (a * b)

/-- Difference of two (integer valued) binary64 numbers. -/
def fsub (a b : Int) : Int := float64 (a - b)

/-- Two's complement wrap-around of a Go `int`. -/
def wrapInt (x : Int) : Int := (x + 2 ^ 63) % 2 ^ 64 - 2 ^ 63

/-! ## internal/job -/

/-- Job priority levels (`type Priority int`). -/
abbrev Priority := Int

def PriorityLow : Priority := 1

def PriorityNormal : Priority := 5

def PriorityHigh : Priority := 10

/-- Current state of a job (`type Status string` with its five constants). -/
inductive Status where
  | StatusPending
  | StatusRunning
  | StatusCompleted
  | StatusFailed
  | StatusRetrying
deriving DecidableEq, Repr

open Status

/-- Type `json.RawMessage`: the raw bytes, and the text `encoding/json` writes for
them when they are encoded as a JSON value: `none` when the bytes are not valid JSON,
otherwise the bytes compacted (insignificant white space removed; `null` for the nil
slice). -/
structure RawMessage where
  bytes : String
  compact : Option String
deriving DecidableEq, Repr

/-- A unit of work.  `Typ` is the Go field `Type`; `Priority` has the underlying
type of the Go `Priority`; timestamps are nanoseconds. -/
structure Job where
  ID : String
  Typ : String
  Payload : RawMessage
  Priority : Int
  Status : Status
  Attempts : Int
  MaxAttempts : Int
  CreatedAt : Int
  StartedAt : Option Int
  CompletedAt : Option Int
  Error : String
deriving DecidableEq, Repr

/-- Constructor `NewJob`: `uuid` is the value of `uuid.New().String()`, `now` the clock and
`data` the outcome of `json.Marshal(payload)`, whose output is valid JSON in compact
form. -/
def NewJob (uuid : String) (now : Int) (jobType : String) (data : Except String String) :
    Except String Job :=
  match data with
  | .error err => .error err
  | .ok bytes =>
    .ok { ID := uuid, Typ := jobType, Payload := { bytes := bytes, compact := some bytes },
          Priority := PriorityNormal,
          Status := StatusPending, Attempts := 0, MaxAttempts := 3, CreatedAt := now,
          StartedAt := none, CompletedAt := none, Error := "" }

def Job.WithPriority (j : Job) (p : Taskflow.Priority) : Job := { j with Priority := p }

def Job.WithMaxAttempts (j : Job) (n : Int) : Job := { j with MaxAttempts := n }

def Job.ShouldRetry (j : Job) : Bool := decide (j.Attempts < j.MaxAttempts)

def Job.MarkStarted (j : Job) (now : Int) : Job :=
  { j with Status := StatusRunning, StartedAt := some now, Attempts := wrapInt (j.Attempts + 1) }

def Job.MarkCompleted (j : Job) (now : Int) : Job :=
  { j with Status := StatusCompleted, CompletedAt := some now }

def Job.MarkFailed (j : Job) (err : String) : Job :=
  { j with Status := StatusFailed, Error := err }

/-! ## the Redis client -/

/-- Errors of the client: the sentinel `redis.Nil` and everything else. -/
inductive RedisError where
  | Nil
  | Other (msg : String)
deriving DecidableEq, Repr

def RedisError.Error : RedisError → String
  | .Nil => "redis: nil"
  | .Other msg => msg

/-- A stored string value: the JSON encoding of a job, or bytes that do not
decode into one. -/
inductive Blob where
  | json (j : Job)
  | raw (bytes : String)
deriving DecidableEq, Repr

/-- Result of `json.Marshal(j)`: an error when the payload is not valid JSON (the rest
of the message depends on the offending byte and is left out); otherwise the encoding of
the job, in which the payload stands compacted.  Compacted text is valid and compact, so
the payload inside the encoding is its own compaction. -/
def Marshal (j : Job) : Except String Blob :=
  match j.Payload.compact with
  | none => .error "json: error calling MarshalJSON for type json.RawMessage"
  | some c => .ok (.json { j with Payload := { bytes := c, compact := some c } })

/-- Result of `json.Unmarshal(data, &j)`. -/
def Unmarshal : Blob → Except String Job
  | .json j => .ok j
  | .raw _ => .error "invalid character"

/-- Sorted-set element (`redis.Z`). -/
structure Z where
  Score : Int
  Member : String
deriving DecidableEq, Repr

/-- Server state. `faults` is the schedule of injected failures: each command
consumes the head; `some msg` makes the command fail with `msg` and leaves the
data untouched.  `journal` records the successful `SET`s, newest first. -/
structure Store where
  strings : String → Option Blob
  zsets : String → List Z
  faults : List (Option String)
  journal : List (String × Blob)

/-- The empty, healthy server. -/
def Store.empty : Store :=
  { strings := fun _ => none, zsets := fun _ => [], faults := [], journal := [] }

/-- Consume the next slot of the fault schedule. -/
def Store.nextFault (s : Store) : Option String × Store :=
  match s.faults with
  | [] => (none, s)
  | f :: rest => (f, { s with faults := rest })

/-- Byte-wise lexicographic order on members, strict. -/
def lexLt : List Char → List Char → Bool
  | [], [] => false
  | [], _ :: _ => true
  | _ :: _, [] => false
  | a :: as, b :: bs => decide (a.toNat < b.toNat) || (decide (a.toNat = b.toNat) && lexLt as bs)

/-- Sorted-set order: by score, then by member. -/
def Z.below (a b : Z) : Bool :=
  decide (a.Score < b.Score) || (decide (a.Score = b.Score) && lexLt a.Member.data b.Member.data)

/-- Greatest element of a sorted set in the sorted-set order. -/
def zmax : List Z → Option Z
  | [] => none
  | e :: es =>
    match zmax es with
    | none => some e
    | some m => if Z.below m e then some e else some m

/-- Remove a member from a sorted set. -/
def zrem (z : List Z) (member : String) : List Z :=
  z.filter (fun x => decide (x.Member ≠ member))

/-- Command `SET key value EX 86400`. -/
def Store.Set (s : Store) (key : String) (value : Blob) : Option RedisError × Store :=
  match s.nextFault with
  | (some msg, s1) => (some (.Other msg), s1)
  | (none, s1) =>
    (none, { s1 with strings := fun k => if k = key then some value else s1.strings k,
                     journal := (key, value) :: s1.journal })

/-- Command `GET key` followed by `.Bytes()`; a missing key yields `redis.Nil`. -/
def Store.Get (s : Store) (key : String) : (Option Blob × Option RedisError) × Store :=
  match s.nextFault with
  | (some msg, s1) => ((none, some (.Other msg)), s1)
  | (none, s1) =>
    match s1.strings key with
    | none => ((none, some .Nil), s1)
    | some v => ((some v, none), s1)

/-- Command `ZADD key score member`: inserts the member or moves it to the new score. -/
def Store.ZAdd (s : Store) (key : String) (e : Z) : Option RedisError × Store :=
  match s.nextFault with
  | (some msg, s1) => (some (.Other msg), s1)
  | (none, s1) =>
    (none, { s1 with zsets := fun k => if k = key then e :: zrem (s1.zsets key) e.Member
                                       else s1.zsets k })

/-- Command `ZPOPMAX key 1` followed by `.Result()`: the reply slice and the error.  A
failed command leaves the slice empty. -/
def Store.ZPopMax (s : Store) (key : String) : (List Z × Option RedisError) × Store :=
  match s.nextFault with
  | (some msg, s1) => (([], some (.Other msg)), s1)
  | (none, s1) =>
    match zmax (s1.zsets key) with
    | none => (([], none), s1)
    | some m =>
      (([m], none), { s1 with zsets := fun k => if k = key then zrem (s1.zsets key) m.Member
                                                else s1.zsets k })

/-! ## internal/queue -/

/-- The queue: the key namespace (`prefix` in the source); the client is the
`Store` threaded through every operation. -/
structure Queue where
  pfx : String

/-- Constructor `queue.New`: an empty configured namespace falls back to the default. -/
def New (configured : String) : Queue :=
  { pfx := if configured = "" then "taskflow:jobs" else configured }

/-- Record key of a job: the namespace, `:data:` and the ID. -/
def Queue.jobKey (q : Queue) (id : String) : String := q.pfx ++ ":data:" ++ id

/-- Index key of a job type: the namespace, `:queue:` and the type. -/
def Queue.queueKey (q : Queue) (jobType : String) : String := q.pfx ++ ":queue:" ++ jobType

/-- The sort key computed by `Enqueue`:
`float64(j.Priority)*1e12 - float64(j.CreatedAt.UnixNano())`. -/
def score (j : Job) : Int :=
  fsub (fmul (float64 j.Priority) 1000000000000) (float64 j.CreatedAt)

def Queue.Enqueue (q : Queue) (s : Store) (j : Job) : Option String × Store :=
  match Marshal j with
  | .error err => (some ("marshal job: " ++ err), s)
  | .ok data =>
    let key := q.jobKey j.ID
    match s.Set key data with
    | (some err, s1) => (some ("store job: " ++ err.Error), s1)
    | (none, s1) =>
      match s1.ZAdd (q.queueKey j.Typ) { Score := score j, Member := j.ID } with
      | (some err, s2) => (some ("enqueue job: " ++ err.Error), s2)
      | (none, s2) => (none, s2)

/-- Method `Dequeue`, returning the Go pair `(*job.Job, error)`. -/
def Queue.Dequeue (q : Queue) (s : Store) (jobType : String) :
    (Option Job × Option String) × Store :=
  match s.ZPopMax (q.queueKey jobType) with
  | ((result, err), s1) =>
    if err = some RedisError.Nil ∨ result.length = 0 then ((none, none), s1)
    else
      match err with
      | some e => ((none, some ("dequeue job: " ++ e.Error)), s1)
      | none =>
        match result with
        | [] => ((none, none), s1)
        | z :: _ =>
          let jobID := z.Member
          match s1.Get (q.jobKey jobID) with
          | ((_, some e), s2) => ((none, some ("fetch job: " ++ e.Error)), s2)
          | ((none, none), s2) => ((none, some "unmarshal job: unexpected end of JSON input"), s2)
          | ((some data, none), s2) =>
            match Unmarshal data with
            | .error e => ((none, some ("unmarshal job: " ++ e)), s2)
            | .ok j => ((some j, none), s2)

def Queue.Update (q : Queue) (s : Store) (j : Job) : Option String × Store :=
  match Marshal j with
  | .error err => (some ("marshal job: " ++ err), s)
  | .ok data =>
    match s.Set (q.jobKey j.ID) data with
    | (some err, s1) => (some err.Error, s1)
    | (none, s1) => (none, s1)

/-- Method `Requeue` mutates the job through its pointer; the updated job is returned
next to the error. -/
def Queue.Requeue (q : Queue) (s : Store) (j : Job) : (Option String × Job) × Store :=
  let j1 := { j with Status := StatusRetrying }
  match q.Enqueue s j1 with
  | (err, s1) => ((err, j1), s1)

/-! ## internal/handler -/

/-- A handler reads the job and reports success (`none`) or an error message.
The handlers of the repository only decode `j.Payload`. -/
abbrev Handler := Job → Option String

/-- The loop of `Chain`, with `n = i + 1` for the loop index `i`: applies
`middlewares[n-1]`, ..., `middlewares[0]` in that order. -/
def Chain.loop {H : Type} (middlewares : List (H → H)) : Nat → H → H
  | 0, h => h
  | i + 1, h =>
    match middlewares.get? i with
    | some m => Chain.loop middlewares i (m h)
    | none => Chain.loop middlewares i h

/-- Function `Chain(h, middlewares...)`. -/
def Chain {H : Type} (h : H) (middlewares : List (H → H)) : H :=
  Chain.loop middlewares middlewares.length h

/-- The nesting `m1(m2(...(mn(h))...))` written out by recursion on the list. -/
def nested {H : Type} (h : H) : List (H → H) → H
  | [] => h
  | m :: ms => m (nested h ms)

/-! ## internal/worker -/

/-- The worker: its queue and the handler registry. -/
structure Worker where
  queue : Queue
  handlers : String → Option Handler

/-- Outcome of one execution: the returned error, the job as left in memory, the
server state, the arguments of the handler invocations and the successive
in-memory states of the job (first the job as received). -/
structure Exec where
  err : Option String
  job : Option Job
  store : Store
  calls : List Job
  mem : List Job

def Worker.executeJob (w : Worker) (s : Store) (j : Job) (h : Handler) (tStart tDone : Int) :
    Exec :=
  let j1 := j.MarkStarted tStart
  let s1 := (w.queue.Update s j1).2
  match h j1 with
  | some msg =>
    let j2 := j1.MarkFailed msg
    let s2 := (w.queue.Update s1 j2).2
    if j2.ShouldRetry then
      match w.queue.Requeue s2 j2 with
      | ((err, j3), s3) =>
        { err := err, job := some j3, store := s3, calls := [j1], mem := [j, j1, j2, j3] }
    else
      { err := some msg, job := some j2, store := s2, calls := [j1], mem := [j, j1, j2] }
  | none =>
    let j2 := j1.MarkCompleted tDone
    let s2 := (w.queue.Update s1 j2).2
    { err := none, job := some j2, store := s2, calls := [j1], mem := [j, j1, j2] }

/-- One iteration of the processing loop for `jobType`. -/
def Worker.processOne (w : Worker) (s : Store) (jobType : String) (tStart tDone : Int) : Exec :=
  match w.queue.Dequeue s jobType with
  | ((_, some err), s1) => { err := some err, job := none, store := s1, calls := [], mem := [] }
  | ((none, none), s1) => { err := none, job := none, store := s1, calls := [], mem := [] }
  | ((some j, none), s1) =>
    match w.handlers jobType with
    | none => { err := none, job := some j, store := s1, calls := [], mem := [j] }
    | some h => w.executeJob s1 j h tStart tDone

/-- Method `Worker.Enqueue`. -/
def Worker.Enqueue (w : Worker) (s : Store) (j : Job) : Option String × Store :=
  w.queue.Enqueue s j


/-! ## derived notions used to state the properties -/

/-- Rounding to the nearest multiple of `u`, ties to the even multiple. -/
def rnd (u n : Nat) : Nat :=
  if 2 * (n % u) < u then n / u * u
  else if u < 2 * (n % u) then (n / u + 1) * u
  else if n / u % 2 = 0 then n / u * u else (n / u + 1) * u

/-- Effect of a successful `SET`. -/
def Store.put (s : Store) (key : String) (value : Blob) : Store :=
  { s with strings := fun k => if k = key then some value else s.strings k,
           journal := (key, value) :: s.journal }

/-- Effect of a successful `ZADD`. -/
def Store.zput (s : Store) (key : String) (e : Z) : Store :=
  { s with zsets := fun k => if k = key then e :: zrem (s.zsets key) e.Member else s.zsets k }

/-- Effect of a successful `ZPOPMAX` that returned `member`. -/
def Store.zdrop (s : Store) (key : String) (member : String) : Store :=
  { s with zsets := fun k => if k = key then zrem (s.zsets key) member else s.zsets k }

/-- The payload is valid JSON: `encoding/json` accepts it. -/
def Job.validPayload (j : Job) : Prop := j.Payload.compact ≠ none

/-- The payload has the form `encoding/json` writes: valid JSON that is its own
compaction.  The payloads `NewJob` builds and the payloads of decoded records written by
`Enqueue` and `Update` have it. -/
def Canonical (j : Job) : Prop := j.Payload.compact = some j.Payload.bytes

/-- The job as it reads back from the record `json.Marshal` writes for it: the payload
compacted, every other field as it is.  A job whose payload is not valid JSON has no record
and is returned unchanged. -/
def Job.written (j : Job) : Job :=
  match j.Payload.compact with
  | some c => { j with Payload := { bytes := c, compact := some c } }
  | none => j

/-- No pending index holds an entry for `id`. -/
def NotIndexed (s : Store) (id : String) : Prop :=
  ∀ k e, e ∈ s.zsets k → e.Member ≠ id

/-- A well-formed stored job: attempt counters within the range of a Go `int` and
within the limit, and a completion time only on a completed job. -/
def WellFormed (j : Job) : Prop :=
  0 ≤ j.Attempts ∧ j.Attempts ≤ j.MaxAttempts ∧ j.MaxAttempts < 2 ^ 63 ∧
    (j.CompletedAt ≠ none → j.Status = StatusCompleted)

/-- A job that waits in the index: it has attempts left, was not completed and
carries one of the two waiting statuses. -/
def Waiting (j : Job) : Prop :=
  0 ≤ j.Attempts ∧ j.Attempts < j.MaxAttempts ∧ j.MaxAttempts < 2 ^ 63 ∧
    j.CompletedAt = none ∧ (j.Status = StatusPending ∨ j.Status = StatusRetrying)

/-- Consistency of the server state: every index entry sits in the index of its
job's type, refers to the stored record of a waiting job and carries the score of
that record, members are unique, and every stored job is well formed, lies
under its own key and carries its payload in the form the encoder writes. -/
structure Consistent (q : Queue) (s : Store) : Prop where
  index : ∀ k e, e ∈ s.zsets k →
    ∃ j, s.strings (q.jobKey e.Member) = some (Blob.json j) ∧ j.ID = e.Member ∧
      k = q.queueKey j.Typ ∧ Waiting j ∧ e.Score = score j
  nodup : ∀ k, ((s.zsets k).map Z.Member).Nodup
  records : ∀ key j, s.strings key = some (Blob.json j) → key = q.jobKey j.ID ∧ WellFormed j
  canon : ∀ key j, s.strings key = some (Blob.json j) → Canonical j

/-- Normal operation: a consistent server state with no injected fault ahead. -/
structure Inv (q : Queue) (s : Store) extends Consistent q s : Prop where
  healthy : s.faults = []

/-- The server state once the next slot of the fault schedule is consumed. -/
def Store.tick (s : Store) : Store := s.nextFault.2

/-- The step from `s` to `t` writes nothing but states out of `ms` under the record key
of `id`: every record is as before or, under that key, one of `ms`, and every new journal
line is such a write. -/
def Touch (q : Queue) (id : String) (ms : List Job) (s t : Store) : Prop :=
  (∀ key, t.strings key = s.strings key ∨
    (key = q.jobKey id ∧ ∃ y ∈ ms, t.strings key = some (Blob.json y))) ∧
  (∀ kv ∈ t.journal, kv ∈ s.journal ∨ ∃ y ∈ ms, kv = (q.jobKey id, Blob.json y))

/-- One worker step on the queue `q`: any registry, any job type, any clock. -/
def Step (q : Queue) (s t : Store) : Prop :=
  ∃ (w : Worker) (jobType : String) (tStart tDone : Int),
    w.queue = q ∧ t = (w.processOne s jobType tStart tDone).store

/-- Any number of worker steps. -/
inductive Reach (q : Queue) : Store → Store → Prop where
  | refl (s : Store) : Reach q s s
  | step {s t u : Store} : Reach q s t → Step q t u → Reach q s u

/-- The processing loop for `jobType`, cut off after as many iterations as there
are clock readings; it returns the final server state and the handler
invocations in order (sleeping and logging left out). -/
def Worker.processLoop (w : Worker) (jobType : String) : List (Int × Int) → Store → Store × List Job
  | [], s => (s, [])
  | (tStart, tDone) :: rest, s =>
    let r := w.processOne s jobType tStart tDone
    let out := w.processLoop jobType rest r.store
    (out.1, r.calls ++ out.2)

/-- Enqueue the jobs one after the other. -/
def enqueueAll (q : Queue) : List Job → Store → Store
  | [], s => s
  | j :: js, s => enqueueAll q js (q.Enqueue s j).2

/-- Results of `n` consecutive `Dequeue` calls and the final server state. -/
def dequeueN (q : Queue) (jobType : String) : Nat → Store → List (Option Job × Option String) × Store
  | 0, s => ([], s)
  | n + 1, s =>
    let r := q.Dequeue s jobType
    let out := dequeueN q jobType n r.2
    (r.1 :: out.1, out.2)

/-- The status changes the code performs. -/
inductive CodeEdge : Status → Status → Prop where
  | start_pending : CodeEdge StatusPending StatusRunning
  | start_retrying : CodeEdge StatusRetrying StatusRunning
  | complete : CodeEdge StatusRunning StatusCompleted
  | fail : CodeEdge StatusRunning StatusFailed
  | retry : CodeEdge StatusFailed StatusRetrying

/-- The status changes of the state machine of section 4.4 of the specification. -/
inductive SpecEdge : Status → Status → Prop where
  | start : SpecEdge StatusPending StatusRunning
  | complete : SpecEdge StatusRunning StatusCompleted
  | retry : SpecEdge StatusRunning StatusRetrying
  | requeue : SpecEdge StatusRetrying StatusPending
  | fail : SpecEdge StatusRunning StatusFailed

/-- The job `j` waits alone in the index of its type after `a` failed attempts. -/
def Queued (q : Queue) (s0 : Store) (j : Job) (a : Int) (s : Store) : Prop :=
  s.faults = [] ∧ s.zsets (q.queueKey j.Typ) = [{ Score := score j, Member := j.ID }] ∧
  (∀ k, k ≠ q.queueKey j.Typ → s.zsets k = s0.zsets k) ∧
  ∃ r, s.strings (q.jobKey j.ID) = some (Blob.json r) ∧ r.ID = j.ID ∧ r.Typ = j.Typ ∧
    r.Priority = j.Priority ∧ r.CreatedAt = j.CreatedAt ∧ r.MaxAttempts = j.MaxAttempts ∧
    r.Attempts = a ∧ (a = 0 → r.Status = StatusPending) ∧ (0 < a → r.Status = StatusRetrying) ∧
    Canonical r

/-- The job `j` has failed for good: record `failed` with all attempts used and the message
`msg`, nothing left in the index of its type. -/
def Exhausted (q : Queue) (s0 : Store) (j : Job) (msg : String) (s : Store) : Prop :=
  s.faults = [] ∧ s.zsets (q.queueKey j.Typ) = [] ∧
  (∀ k, k ≠ q.queueKey j.Typ → s.zsets k = s0.zsets k) ∧
  ∃ r, s.strings (q.jobKey j.ID) = some (Blob.json r) ∧ r.Status = StatusFailed ∧
    r.Attempts = j.MaxAttempts ∧ r.Error = msg

/-- The index entry `Enqueue` inserts for a job. -/
def entry (j : Job) : Z := { Score := score j, Member := j.ID }

/-- The index of `jobType` holds exactly the jobs `js` (in some order), all of them with
their record in place, on a healthy server. -/
def Holds (q : Queue) (jobType : String) (s : Store) (js : List Job) : Prop :=
  s.faults = [] ∧ (s.zsets (q.queueKey jobType)).Perm (js.map entry) ∧
  (js.map Job.ID).Nodup ∧
  ∀ j ∈ js, s.strings (q.jobKey j.ID) = some (Blob.json j.written)

/-- The job stored under the record key of `id`, if one decodes. -/
def recordOf (q : Queue) (s : Store) (id : String) : Option Job :=
  match s.strings (q.jobKey id) with
  | some (Blob.json j) => some j
  | _ => none

/-- The statuses written under `key`, in the order of writing. -/
def persistedStatuses (s : Store) (key : String) : List Status :=
  s.journal.reverse.filterMap fun kv =>
    match kv with
    | (k, Blob.json j) => if k = key then some j.Status else none
    | (_, Blob.raw _) => none

/-! ## concrete jobs used in the examples -/

/-- The payload `null`, as `json.Marshal(nil)` writes it. -/
def nullPayload : RawMessage := { bytes := "null", compact := some "null" }

/-- A job of normal priority created on 14 Nov 2023, 22:13:20 UTC. -/
def earlyNormal : Job :=
  { ID := "job-b", Typ := "email", Payload := nullPayload, Priority := PriorityNormal,
    Status := StatusPending, Attempts := 0, MaxAttempts := 3,
    CreatedAt := 1700000000000000000, StartedAt := none, CompletedAt := none, Error := "" }

/-- A job of high priority created 100 minutes after `earlyNormal`. -/
def lateHigh : Job :=
  { ID := "job-a", Typ := "email", Payload := nullPayload, Priority := PriorityHigh,
    Status := StatusPending, Attempts := 0, MaxAttempts := 3,
    CreatedAt := 1700006000000000000, StartedAt := none, CompletedAt := none, Error := "" }

/-- A job of normal priority created at the same instant as `earlyNormal`. -/
def firstIn : Job :=
  { ID := "job-a", Typ := "email", Payload := nullPayload, Priority := PriorityNormal,
    Status := StatusPending, Attempts := 0, MaxAttempts := 3,
    CreatedAt := 1700000000000000000, StartedAt := none, CompletedAt := none, Error := "" }

/-- A job of normal priority created one nanosecond after `firstIn`. -/
def secondIn : Job :=
  { ID := "job-b", Typ := "email", Payload := nullPayload, Priority := PriorityNormal,
    Status := StatusPending, Attempts := 0, MaxAttempts := 3,
    CreatedAt := 1700000000000000001, StartedAt := none, CompletedAt := none, Error := "" }

/-- A job of normal priority created a microsecond after `firstIn`. -/
def thirdIn : Job :=
  { ID := "job-c", Typ := "email", Payload := nullPayload, Priority := PriorityNormal,
    Status := StatusPending, Attempts := 0, MaxAttempts := 3,
    CreatedAt := 1700000000000001000, StartedAt := none, CompletedAt := none, Error := "" }

/-- The job `earlyNormal` with a payload that is not valid JSON, as a caller can build it
with a struct literal. -/
def notJsonJob : Job :=
  { earlyNormal with Payload := { bytes := "not json", compact := none } }

/-- The queue with the default namespace. -/
def defaultQueue : Queue := New ""

/-- A server whose next command fails with a connection error. -/
def unreachable : Store :=
  { Store.empty with faults := [some "dial tcp 127.0.0.1:6379: connect: connection refused"] }

/-- A worker on the default queue whose `email` handler fails on every invocation. -/
def alwaysFails : Worker :=
  { queue := defaultQueue,
    handlers := fun t => if t = "email" then some (fun _ => some "smtp: connection refused")
                         else none }

/-- A worker on the default queue whose `email` handler succeeds. -/
def alwaysSucceeds : Worker :=
  { queue := defaultQueue,
    handlers := fun t => if t = "email" then some (fun _ => none) else none }

/-- Clock readings for five iterations of the processing loop, one second apart. -/
def fiveTicks : List (Int × Int) :=
  [(1700000001000000000, 1700000001500000000), (1700000002000000000, 1700000002500000000),
   (1700000003000000000, 1700000003500000000), (1700000004000000000, 1700000004500000000),
   (1700000005000000000, 1700000005500000000)]

/-! ## float64: rounding lemmas -/

theorem bitLenAux_lt (fuel : Nat) : ∀ n, n ≤ fuel → n < 2 ^ bitLenAux fuel n := by
  induction fuel with
  | zero => intro n h; simp [bitLenAux]; omega
  | succ f ih =>
    intro n h
    unfold bitLenAux
    split
    · omega
    · have h2 := ih (n / 2) (by omega)
      rw [pow_succ]
      omega

theorem bitLenAux_ge (fuel : Nat) : ∀ n, n ≤ fuel → 0 < n → 2 ^ bitLenAux fuel n ≤ 2 * n := by
  induction fuel with
  | zero => intro n h h0; omega
  | succ f ih =>
    intro n h h0
    unfold bitLenAux
    rw [if_neg (by omega)]
    rw [pow_succ]
    by_cases h1 : n / 2 = 0
    · have : n = 1 := by omega
      subst this
      cases f <;> simp [bitLenAux]
    · have h2 := ih (n / 2) (by omega) (by omega)
      omega

theorem lt_pow_bitLen (n : Nat) : n < 2 ^ bitLen n := bitLenAux_lt n n (le_refl n)

theorem pow_bitLen_le (n : Nat) (h : 0 < n) : 2 ^ bitLen n ≤ 2 * n := bitLenAux_ge n n (le_refl n) h

theorem bitLen_le_of_lt_pow (n k : Nat) (h : n < 2 ^ k) : bitLen n ≤ k := by
  by_contra hc
  rcases Nat.eq_zero_or_pos n with h0 | h0
  · subst h0; simp [bitLen, bitLenAux] at hc
  · have h1 := pow_bitLen_le n h0
    have h2 : 2 ^ (k + 1) ≤ 2 ^ bitLen n := Nat.pow_le_pow_right (by norm_num) (by omega)
    rw [pow_succ] at h2
    omega

theorem lt_bitLen_of_pow_le (n k : Nat) (h : 2 ^ k ≤ n) : k < bitLen n := by
  by_contra hc
  have h1 := lt_pow_bitLen n
  have h2 : 2 ^ bitLen n ≤ 2 ^ k := Nat.pow_le_pow_right (by norm_num) (by omega)
  omega

theorem bitLen_eq (n k : Nat) (h1 : 2 ^ k ≤ n) (h2 : n < 2 ^ (k + 1)) : bitLen n = k + 1 := by
  have := bitLen_le_of_lt_pow n (k + 1) h2
  have := lt_bitLen_of_pow_le n k h1
  omega

theorem bitLen_mono {a b : Nat} (h : a ≤ b) : bitLen a ≤ bitLen b :=
  bitLen_le_of_lt_pow a (bitLen b) (lt_of_le_of_lt h (lt_pow_bitLen b))

theorem roundNat_eq_rnd (n : Nat) : roundNat n = rnd (ulp n) n := rfl

theorem ulp_pos (n : Nat) : 0 < ulp n := by unfold ulp; positivity

theorem rnd_cases (u n : Nat) : rnd u n = n / u * u ∨ rnd u n = (n / u + 1) * u := by
  unfold rnd; split_ifs <;> simp

theorem rnd_ge (u n : Nat) : n / u * u ≤ rnd u n := by
  rcases rnd_cases u n with h | h <;> rw [h]
  exact Nat.mul_le_mul_right u (by omega)

theorem rnd_le (u n : Nat) : rnd u n ≤ (n / u + 1) * u := by
  rcases rnd_cases u n with h | h <;> rw [h]
  exact Nat.mul_le_mul_right u (by omega)

theorem rnd_near (u n : Nat) (hu : 0 < u) : 2 * rnd u n ≤ 2 * n + u ∧ 2 * n ≤ 2 * rnd u n + u := by
  have h1 := Nat.div_add_mod n u
  have h2 := Nat.mod_lt n hu
  have h3 : (n / u + 1) * u = n / u * u + u := by ring
  have h4 : u * (n / u) = n / u * u := by ring
  unfold rnd
  split_ifs <;> omega

theorem rnd_mono (u : Nat) (hu : 0 < u) {a b : Nat} (h : a ≤ b) : rnd u a ≤ rnd u b := by
  have hq : a / u ≤ b / u := Nat.div_le_div_right h
  rcases Nat.lt_or_ge (a / u) (b / u) with hlt | hge
  · calc rnd u a ≤ (a / u + 1) * u := rnd_le u a
      _ ≤ b / u * u := Nat.mul_le_mul_right u hlt
      _ ≤ rnd u b := rnd_ge u b
  · have heq : a / u = b / u := by omega
    have ha := Nat.div_add_mod a u
    have hb := Nat.div_add_mod b u
    have hr : a % u ≤ b % u := by
      rw [heq] at ha
      omega
    have h3 : (b / u + 1) * u = b / u * u + u := by ring
    unfold rnd
    rw [heq]
    split_ifs <;> omega

theorem rnd_of_dvd (u n : Nat) (hu : 0 < u) (h : u ∣ n) : rnd u n = n := by
  have h0 : n % u = 0 := Nat.mod_eq_zero_of_dvd h
  unfold rnd
  rw [h0, if_pos (by omega)]
  exact Nat.div_mul_cancel h

theorem roundNat_of_dvd (n : Nat) (h : ulp n ∣ n) : roundNat n = n :=
  rnd_of_dvd (ulp n) n (ulp_pos n) h

theorem ulp_dvd_of_lt (n k : Nat) (hk : 53 ≤ k) (h : n < 2 ^ k) : ulp n ∣ 2 ^ (k - 53) := by
  have := bitLen_le_of_lt_pow n k h
  unfold ulp
  exact Nat.pow_dvd_pow 2 (by omega)

theorem roundNat_small (n : Nat) (h : n < 2 ^ 53) : roundNat n = n := by
  apply roundNat_of_dvd
  have := ulp_dvd_of_lt n 53 (le_refl _) h
  simp at this
  rw [this]
  exact one_dvd n

theorem roundNat_le_pow (n : Nat) : roundNat n ≤ 2 ^ bitLen n := by
  rw [roundNat_eq_rnd]
  have hu := ulp_pos n
  have hlt := lt_pow_bitLen n
  have hd : ulp n ∣ 2 ^ bitLen n := Nat.pow_dvd_pow 2 (by omega)
  obtain ⟨m, hm⟩ := hd
  have : n / ulp n < m := by
    rw [Nat.div_lt_iff_lt_mul hu]
    rw [hm, Nat.mul_comm] at hlt
    exact hlt
  calc rnd (ulp n) n ≤ (n / ulp n + 1) * ulp n := rnd_le _ _
    _ ≤ m * ulp n := Nat.mul_le_mul_right _ this
    _ = 2 ^ bitLen n := by rw [hm, Nat.mul_comm]

theorem pow_pred_bitLen_le (n : Nat) (h : 0 < n) : 2 ^ (bitLen n - 1) ≤ n := by
  have h1 := pow_bitLen_le n h
  have h2 : 0 < bitLen n := lt_bitLen_of_pow_le n 0 (by simpa using h)
  have e : 2 ^ bitLen n = 2 ^ (bitLen n - 1) * 2 := by
    rw [← pow_succ]; congr 1; omega
  omega

theorem pow_pred_le_roundNat (n : Nat) (h : 0 < n) : 2 ^ (bitLen n - 1) ≤ roundNat n := by
  rw [roundNat_eq_rnd]
  have hu := ulp_pos n
  have hb := pow_pred_bitLen_le n h
  have hd : ulp n ∣ 2 ^ (bitLen n - 1) := by
    show 2 ^ (bitLen n - 53) ∣ 2 ^ (bitLen n - 1)
    exact Nat.pow_dvd_pow 2 (by omega)
  obtain ⟨m, hm⟩ := hd
  have : m ≤ n / ulp n := by
    rw [Nat.le_div_iff_mul_le hu]
    rw [hm, Nat.mul_comm] at hb
    exact hb
  calc 2 ^ (bitLen n - 1) = m * ulp n := by rw [hm, Nat.mul_comm]
    _ ≤ n / ulp n * ulp n := Nat.mul_le_mul_right _ this
    _ ≤ rnd (ulp n) n := rnd_ge _ _

theorem roundNat_mono {a b : Nat} (h : a ≤ b) : roundNat a ≤ roundNat b := by
  rcases Nat.lt_or_ge (bitLen a) (bitLen b) with hlt | hge
  · have h1 := roundNat_le_pow a
    have hpos : 0 < b := by
      rcases Nat.eq_zero_or_pos b with h0 | h0
      · subst h0; simp [bitLen, bitLenAux] at hlt
      · exact h0
    have h2 := pow_pred_le_roundNat b hpos
    have h3 : 2 ^ bitLen a ≤ 2 ^ (bitLen b - 1) := Nat.pow_le_pow_right (by norm_num) (by omega)
    omega
  · have heq : bitLen a = bitLen b := le_antisymm (bitLen_mono h) hge
    rw [roundNat_eq_rnd, roundNat_eq_rnd]
    have : ulp a = ulp b := by unfold ulp; rw [heq]
    rw [this]
    exact rnd_mono (ulp b) (ulp_pos b) h

theorem float64_mono {x y : Int} (h : x ≤ y) : float64 x ≤ float64 y := by
  unfold float64
  by_cases hx : 0 ≤ x
  · have hy : 0 ≤ y := le_trans hx h
    rw [if_pos hx, if_pos hy]
    have : x.toNat ≤ y.toNat := Int.toNat_le_toNat h
    exact_mod_cast roundNat_mono this
  · rw [if_neg hx]
    by_cases hy : 0 ≤ y
    · rw [if_pos hy]
      have h1 : (0 : Int) ≤ (roundNat (-x).toNat : Int) := Int.ofNat_nonneg _
      have h2 : (0 : Int) ≤ (roundNat y.toNat : Int) := Int.ofNat_nonneg _
      omega
    · rw [if_neg hy]
      have : (-y).toNat ≤ (-x).toNat := Int.toNat_le_toNat (by omega)
      have h3 : (roundNat (-y).toNat : Int) ≤ (roundNat (-x).toNat : Int) := by
        exact_mod_cast roundNat_mono this
      omega

theorem float64_of_nat_small (x : Int) (h0 : 0 ≤ x) (h : x < 2 ^ 53) : float64 x = x := by
  unfold float64
  rw [if_pos h0, roundNat_small]
  · exact Int.toNat_of_nonneg h0
  · have := Int.toNat_of_nonneg h0
    omega

theorem ulp_of_bitLen (n k : Nat) (h1 : 2 ^ (k + 52) ≤ n) (h2 : n < 2 ^ (k + 53)) :
    ulp n = 2 ^ k := by
  have := bitLen_eq n (k + 52) h1 h2
  unfold ulp
  rw [this]
  congr 1

theorem rnd_dvd (u n : Nat) : u ∣ rnd u n := by
  rcases rnd_cases u n with h | h <;> rw [h] <;> exact Dvd.intro_left _ rfl

/-- Conversion of a timestamp of the years 2006 to 2043: the result is a multiple of 256
within 128 of the timestamp. -/
theorem float64_time (t : Int) (h1 : 2 ^ 60 ≤ t) (h2 : t < 2 ^ 61) :
    ∃ f : Nat, float64 t = (f : Int) ∧ 256 ∣ f ∧ 2 ^ 60 ≤ f ∧ f ≤ 2 ^ 61 ∧
      2 * (f : Int) ≤ 2 * t + 256 ∧ 2 * t ≤ 2 * (f : Int) + 256 := by
  have h0 : 0 ≤ t := by omega
  have ht := Int.toNat_of_nonneg h0
  have hn1 : 2 ^ 60 ≤ t.toNat := by omega
  have hn2 : t.toNat < 2 ^ 61 := by omega
  have hu : ulp t.toNat = 256 := ulp_of_bitLen t.toNat 8 hn1 hn2
  have hb : bitLen t.toNat = 61 := bitLen_eq t.toNat 60 hn1 hn2
  refine ⟨roundNat t.toNat, ?_, ?_, ?_, ?_, ?_⟩
  · unfold float64; rw [if_pos h0]
  · rw [roundNat_eq_rnd, hu]; exact rnd_dvd _ _
  · have := pow_pred_le_roundNat t.toNat (by omega)
    rw [hb] at this
    exact this
  · have := roundNat_le_pow t.toNat
    rw [hb] at this
    exact this
  · have := rnd_near 256 t.toNat (by norm_num)
    rw [roundNat_eq_rnd, hu]
    omega

theorem roundNat_exact_256 (m : Nat) (hd : 256 ∣ m) (hm : m ≤ 2 ^ 61) : roundNat m = m := by
  apply roundNat_of_dvd
  rcases Nat.lt_or_ge m (2 ^ 61) with hlt | hge
  · have := ulp_dvd_of_lt m 61 (by norm_num) hlt
    exact Dvd.dvd.trans this hd
  · have e : m = 2 ^ 61 := le_antisymm hm hge
    have := ulp_dvd_of_lt m 62 (by norm_num) (by omega)
    rw [e] at this ⊢
    exact Dvd.dvd.trans this (by norm_num)

/-- The score as a function of priority and creation time. -/
theorem score_eq (j : Job) :
    score j = float64 (float64 (float64 j.Priority * 1000000000000) - float64 j.CreatedAt) := rfl

theorem score_antitone_time (a b : Job) (hp : a.Priority = b.Priority)
    (ht : a.CreatedAt ≤ b.CreatedAt) : score b ≤ score a := by
  rw [score_eq, score_eq, hp]
  apply float64_mono
  have := float64_mono ht
  omega

theorem score_exact (j : Job) (hp0 : 0 ≤ j.Priority) (hp1 : j.Priority ≤ 9007)
    (h1 : 2 ^ 60 ≤ j.CreatedAt) (h2 : j.CreatedAt < 2 ^ 61) :
    score j = j.Priority * 1000000000000 - float64 j.CreatedAt := by
  obtain ⟨f, hf, hd, hlo, hhi, -, -⟩ := float64_time j.CreatedAt h1 h2
  rw [score_eq, float64_of_nat_small j.Priority hp0 (by omega),
    float64_of_nat_small (j.Priority * 1000000000000) (by omega) (by omega), hf]
  have hneg : ¬ (0 ≤ j.Priority * 1000000000000 - (f : Int)) := by omega
  unfold float64
  rw [if_neg hneg]
  obtain ⟨c, hc⟩ := hd
  have hcast : (j.Priority * 1000000000000).toNat = 256 * (j.Priority.toNat * 3906250000) := by
    omega
  have hm : (-(j.Priority * 1000000000000 - (f : Int))).toNat
      = 256 * (c - j.Priority.toNat * 3906250000) := by omega
  have hex : roundNat (256 * (c - j.Priority.toNat * 3906250000))
      = 256 * (c - j.Priority.toNat * 3906250000) :=
    roundNat_exact_256 _ (Dvd.intro _ rfl) (by omega)
  rw [hm, hex]
  omega

theorem score_strict_time (a b : Job) (hp : a.Priority = b.Priority)
    (hp0 : 0 ≤ a.Priority) (hp1 : a.Priority ≤ 9007)
    (h1 : 2 ^ 60 ≤ a.CreatedAt) (h2 : b.CreatedAt < 2 ^ 61)
    (ht : a.CreatedAt + 256 < b.CreatedAt) : score b < score a := by
  rw [score_exact a hp0 hp1 h1 (by omega), score_exact b (by omega) (by omega) (by omega) h2]
  obtain ⟨fa, hfa, -, -, -, ha1, -⟩ := float64_time a.CreatedAt h1 (by omega)
  obtain ⟨fb, hfb, -, -, -, -, hb2⟩ := float64_time b.CreatedAt (by omega) h2
  rw [hfa, hfb, hp]
  omega

/-! ## keys -/

theorem jobKey_inj (q : Queue) {a b : String} (h : q.jobKey a = q.jobKey b) : a = b := by
  unfold Queue.jobKey at h
  have := congrArg String.data h
  simp only [String.data_append, List.append_cancel_left_eq] at this
  exact String.ext this

theorem queueKey_inj (q : Queue) {a b : String} (h : q.queueKey a = q.queueKey b) : a = b := by
  unfold Queue.queueKey at h
  have := congrArg String.data h
  simp only [String.data_append, List.append_cancel_left_eq] at this
  exact String.ext this

/-! ## sorted sets -/

theorem zmax_eq_none {z : List Z} (h : zmax z = none) : z = [] := by
  cases z with
  | nil => rfl
  | cons e es =>
    unfold zmax at h
    split at h
    · cases h
    · split at h <;> cases h

theorem zmax_mem : ∀ {z : List Z} {m : Z}, zmax z = some m → m ∈ z := by
  intro z
  induction z with
  | nil => intro m h; simp [zmax] at h
  | cons e es ih =>
    intro m h
    unfold zmax at h
    split at h
    · cases h; exact List.mem_cons_self _ _
    · rename_i m0 hm0
      split at h
      · cases h; exact List.mem_cons_self _ _
      · cases h; exact List.mem_cons_of_mem _ (ih hm0)

theorem below_score {a b : Z} (h : Z.below a b = true) : a.Score ≤ b.Score := by
  unfold Z.below at h
  simp only [Bool.or_eq_true, Bool.and_eq_true, decide_eq_true_eq] at h
  rcases h with h | ⟨h, -⟩ <;> omega

theorem not_below_score {a b : Z} (h : ¬ Z.below a b = true) : b.Score ≤ a.Score := by
  unfold Z.below at h
  simp only [Bool.or_eq_true, Bool.and_eq_true, decide_eq_true_eq, not_or] at h
  omega

theorem zmax_score_ge : ∀ {z : List Z} {m : Z}, zmax z = some m → ∀ e ∈ z, e.Score ≤ m.Score := by
  intro z
  induction z with
  | nil => intro m h; simp [zmax] at h
  | cons e es ih =>
    intro m h x hx
    unfold zmax at h
    split at h
    · rename_i hnone
      cases h
      have := zmax_eq_none hnone
      subst this
      simp at hx
      subst hx
      exact le_refl _
    · rename_i m0 hm0
      have ih0 := ih hm0
      rcases List.mem_cons.mp hx with hx | hx
      · subst hx
        split at h
        · cases h; exact le_refl _
        · rename_i hb
          cases h
          exact not_below_score hb
      · have := ih0 x hx
        split at h
        · rename_i hb
          cases h
          have := below_score hb
          omega
        · cases h; exact this

theorem mem_zrem {z : List Z} {member : String} {e : Z} :
    e ∈ zrem z member ↔ e ∈ z ∧ e.Member ≠ member := by
  unfold zrem
  simp [List.mem_filter]

theorem zrem_nodup {z : List Z} (member : String) (h : (z.map Z.Member).Nodup) :
    ((zrem z member).map Z.Member).Nodup := by
  unfold zrem
  exact List.Nodup.sublist (List.Sublist.map _ (List.filter_sublist z)) h


/-- Record keys and index keys never coincide (`:data:` against `:queue:` after the common
namespace), so strings and sorted sets can be kept in separate keyspaces. -/
theorem jobKey_ne_queueKey (q : Queue) (id jobType : String) :
    q.jobKey id ≠ q.queueKey jobType := by
  unfold Queue.jobKey Queue.queueKey
  intro h
  have h1 := congrArg String.data h
  simp only [String.data_append, List.append_assoc, List.append_cancel_left_eq] at h1
  simp at h1

/-! ## commands on a healthy server -/

theorem nextFault_healthy {s : Store} (h : s.faults = []) : s.nextFault = (none, s) := by
  unfold Store.nextFault
  rw [h]

theorem Set_healthy {s : Store} (h : s.faults = []) (key : String) (v : Blob) :
    s.Set key v = (none, s.put key v) := by
  unfold Store.Set
  rw [nextFault_healthy h]
  rfl

theorem Get_healthy {s : Store} (h : s.faults = []) (key : String) :
    s.Get key = (match s.strings key with
      | none => ((none, some RedisError.Nil), s)
      | some v => ((some v, none), s)) := by
  unfold Store.Get
  rw [nextFault_healthy h]

theorem ZAdd_healthy {s : Store} (h : s.faults = []) (key : String) (e : Z) :
    s.ZAdd key e = (none, s.zput key e) := by
  unfold Store.ZAdd
  rw [nextFault_healthy h]
  rfl

theorem ZPopMax_healthy {s : Store} (h : s.faults = []) (key : String) :
    s.ZPopMax key = (match zmax (s.zsets key) with
      | none => (([], none), s)
      | some m => (([m], none), s.zdrop key m.Member)) := by
  unfold Store.ZPopMax
  rw [nextFault_healthy h]
  rfl

/-! ## encoding of a job -/

theorem Marshal_canonical {j : Job} (h : Canonical j) : Marshal j = .ok (Blob.json j) := by
  rcases j with ⟨id, ty, ⟨b, c⟩, p, st, a, m, ca, sa, co, e⟩
  simp only [Canonical] at h
  subst h
  rfl

theorem Marshal_invalid {j : Job} (h : j.Payload.compact = none) :
    Marshal j = .error "json: error calling MarshalJSON for type json.RawMessage" := by
  unfold Marshal
  rw [h]

theorem Marshal_valid {j : Job} (h : j.validPayload) : Marshal j = .ok (Blob.json j.written) := by
  unfold Marshal Job.written
  cases hc : j.Payload.compact with
  | none => exact absurd hc h
  | some c => rfl

theorem Canonical_valid {j : Job} (h : Canonical j) : j.validPayload := by
  unfold Job.validPayload
  rw [h]
  simp

theorem Canonical_written {j : Job} (h : j.validPayload) : Canonical j.written := by
  unfold Job.written
  cases hc : j.Payload.compact with
  | none => exact absurd hc h
  | some c => rfl

theorem written_of_canonical {j : Job} (h : Canonical j) : j.written = j := by
  rcases j with ⟨id, ty, ⟨b, c⟩, p, st, a, m, ca, sa, co, e⟩
  simp only [Canonical] at h
  subst h
  rfl

/-- Compaction touches the payload only. -/
theorem written_fields (j : Job) :
    j.written.ID = j.ID ∧ j.written.Typ = j.Typ ∧ j.written.Priority = j.Priority ∧
    j.written.Status = j.Status ∧ j.written.Attempts = j.Attempts ∧
    j.written.MaxAttempts = j.MaxAttempts ∧ j.written.CreatedAt = j.CreatedAt ∧
    j.written.StartedAt = j.StartedAt ∧ j.written.CompletedAt = j.CompletedAt ∧
    j.written.Error = j.Error ∧ j.written.Payload.compact = j.Payload.compact := by
  unfold Job.written
  cases hc : j.Payload.compact with
  | none => simp [hc]
  | some c => simp

@[simp]
theorem written_ID (j : Job) : j.written.ID = j.ID := (written_fields j).1

@[simp]
theorem written_Typ (j : Job) : j.written.Typ = j.Typ := (written_fields j).2.1

@[simp]
theorem written_Priority (j : Job) : j.written.Priority = j.Priority := (written_fields j).2.2.1

@[simp]
theorem written_CreatedAt (j : Job) : j.written.CreatedAt = j.CreatedAt :=
  (written_fields j).2.2.2.2.2.2.1

theorem score_written (j : Job) : score j.written = score j := by
  unfold score
  rw [written_Priority, written_CreatedAt]

theorem entry_written (j : Job) : entry j.written = entry j := by
  unfold entry
  rw [score_written, written_ID]

theorem Marshal_written (j : Job) : Marshal j.written = Marshal j := by
  unfold Marshal Job.written
  cases hc : j.Payload.compact with
  | none => simp [hc]
  | some c => rfl

/-- To `Enqueue` it makes no difference whether the payload was compacted beforehand. -/
theorem Enqueue_written (q : Queue) (s : Store) (j : Job) :
    q.Enqueue s j.written = q.Enqueue s j := by
  unfold Queue.Enqueue
  rw [Marshal_written, written_ID, written_Typ, score_written]

/-! ## queue operations on a healthy server -/

theorem Update_healthy (q : Queue) {s : Store} (h : s.faults = []) (j : Job)
    (hp : Canonical j) :
    q.Update s j = (none, s.put (q.jobKey j.ID) (Blob.json j)) := by
  unfold Queue.Update
  simp only [Marshal_canonical hp, Set_healthy h]

theorem Enqueue_healthy (q : Queue) {s : Store} (h : s.faults = []) (j : Job)
    (hp : Canonical j) :
    q.Enqueue s j =
      (none, (s.put (q.jobKey j.ID) (Blob.json j)).zput (q.queueKey j.Typ)
        { Score := score j, Member := j.ID }) := by
  unfold Queue.Enqueue
  simp only [Marshal_canonical hp, Set_healthy h]
  rw [ZAdd_healthy (by exact h)]

/-- On a healthy server `Enqueue` of a job of valid payload succeeds: the record holds the
job with its payload compacted, the index entry is the job's. -/
theorem Enqueue_healthy_valid (q : Queue) {s : Store} (h : s.faults = []) (j : Job)
    (hp : j.validPayload) :
    q.Enqueue s j =
      (none, (s.put (q.jobKey j.ID) (Blob.json j.written)).zput (q.queueKey j.Typ)
        { Score := score j, Member := j.ID }) := by
  rw [← Enqueue_written, Enqueue_healthy q h j.written (Canonical_written hp), written_ID,
    written_Typ, score_written]

theorem Requeue_healthy (q : Queue) {s : Store} (h : s.faults = []) (j : Job)
    (hp : Canonical j) :
    q.Requeue s j =
      ((none, { j with Status := StatusRetrying }),
        (s.put (q.jobKey j.ID) (Blob.json { j with Status := StatusRetrying })).zput
          (q.queueKey j.Typ) { Score := score j, Member := j.ID }) := by
  simp only [Queue.Requeue, Enqueue_healthy q h { j with Status := StatusRetrying } hp]
  rfl

theorem Dequeue_healthy_empty (q : Queue) {s : Store} (h : s.faults = []) (jobType : String)
    (hz : zmax (s.zsets (q.queueKey jobType)) = none) :
    q.Dequeue s jobType = ((none, none), s) := by
  unfold Queue.Dequeue
  rw [ZPopMax_healthy h, hz]
  simp

theorem Dequeue_healthy_some (q : Queue) {s : Store} (h : s.faults = []) (jobType : String)
    {m : Z} {j : Job} (hz : zmax (s.zsets (q.queueKey jobType)) = some m)
    (hr : s.strings (q.jobKey m.Member) = some (Blob.json j)) :
    q.Dequeue s jobType = ((some j, none), s.zdrop (q.queueKey jobType) m.Member) := by
  unfold Queue.Dequeue
  rw [ZPopMax_healthy h, hz]
  have hh : (s.zdrop (q.queueKey jobType) m.Member).faults = [] := h
  have hs : (s.zdrop (q.queueKey jobType) m.Member).strings (q.jobKey m.Member)
      = some (Blob.json j) := hr
  simp [Get_healthy hh, hs, Unmarshal]

/-! ## the invariant -/

theorem wrapInt_succ {a m : Int} (h0 : 0 ≤ a) (h1 : a < m) (h2 : m < 2 ^ 63) :
    wrapInt (a + 1) = a + 1 := by
  unfold wrapInt
  omega

theorem Consistent_put {q : Queue} {s : Store} (hI : Consistent q s) {j : Job}
    (hn : NotIndexed s j.ID) (hb : WellFormed j) (hp : Canonical j) :
    Consistent q (s.put (q.jobKey j.ID) (Blob.json j)) where
  index := by
    intro k e he
    obtain ⟨j0, h1, h2, h3, h4, h5⟩ := hI.index k e he
    refine ⟨j0, ?_, h2, h3, h4, h5⟩
    have hne : q.jobKey e.Member ≠ q.jobKey j.ID := fun hc => hn k e he (jobKey_inj q hc)
    show (if q.jobKey e.Member = q.jobKey j.ID then some (Blob.json j)
      else s.strings (q.jobKey e.Member)) = some (Blob.json j0)
    rw [if_neg hne]
    exact h1
  nodup := hI.nodup
  records := by
    intro key j0 h
    have h' : (if key = q.jobKey j.ID then some (Blob.json j) else s.strings key)
        = some (Blob.json j0) := h
    by_cases hk : key = q.jobKey j.ID
    · rw [if_pos hk] at h'
      cases h'
      exact ⟨hk, hb⟩
    · rw [if_neg hk] at h'
      exact hI.records key j0 h'
  canon := by
    intro key j0 h
    have h' : (if key = q.jobKey j.ID then some (Blob.json j) else s.strings key)
        = some (Blob.json j0) := h
    by_cases hk : key = q.jobKey j.ID
    · rw [if_pos hk] at h'
      cases h'
      exact hp
    · rw [if_neg hk] at h'
      exact hI.canon key j0 h'

theorem Inv_put {q : Queue} {s : Store} (hI : Inv q s) {j : Job} (hn : NotIndexed s j.ID)
    (hb : WellFormed j) (hp : Canonical j) : Inv q (s.put (q.jobKey j.ID) (Blob.json j)) :=
  { toConsistent := Consistent_put hI.toConsistent hn hb hp, healthy := hI.healthy }

theorem Consistent_zput {q : Queue} {s : Store} (hI : Consistent q s) {j : Job}
    (hr : s.strings (q.jobKey j.ID) = some (Blob.json j)) (hw : Waiting j) :
    Consistent q (s.zput (q.queueKey j.Typ) { Score := score j, Member := j.ID }) where
  index := by
    intro k e he
    have he' : e ∈ (if k = q.queueKey j.Typ
        then ({ Score := score j, Member := j.ID } : Z) :: zrem (s.zsets (q.queueKey j.Typ)) j.ID
        else s.zsets k) := he
    by_cases hk : k = q.queueKey j.Typ
    · rw [if_pos hk] at he'
      rcases List.mem_cons.mp he' with h | h
      · subst h
        exact ⟨j, hr, rfl, hk, hw, rfl⟩
      · rw [hk]
        exact hI.index _ e (mem_zrem.mp h).1
    · rw [if_neg hk] at he'
      exact hI.index k e he'
  nodup := by
    intro k
    show ((if k = q.queueKey j.Typ
        then ({ Score := score j, Member := j.ID } : Z) :: zrem (s.zsets (q.queueKey j.Typ)) j.ID
        else s.zsets k).map Z.Member).Nodup
    by_cases hk : k = q.queueKey j.Typ
    · rw [if_pos hk]
      simp only [List.map_cons, List.nodup_cons]
      refine ⟨?_, zrem_nodup _ (hI.nodup _)⟩
      intro hmem
      obtain ⟨e, he, hm⟩ := List.mem_map.mp hmem
      exact (mem_zrem.mp he).2 hm
    · rw [if_neg hk]
      exact hI.nodup k
  records := hI.records
  canon := hI.canon

theorem Inv_zput {q : Queue} {s : Store} (hI : Inv q s) {j : Job}
    (hr : s.strings (q.jobKey j.ID) = some (Blob.json j)) (hw : Waiting j) :
    Inv q (s.zput (q.queueKey j.Typ) { Score := score j, Member := j.ID }) :=
  { toConsistent := Consistent_zput hI.toConsistent hr hw, healthy := hI.healthy }

theorem Consistent_zdrop {q : Queue} {s : Store} (hI : Consistent q s) (key member : String) :
    Consistent q (s.zdrop key member) where
  index := by
    intro k e he
    have he' : e ∈ (if k = key then zrem (s.zsets key) member else s.zsets k) := he
    by_cases hk : k = key
    · rw [if_pos hk] at he'
      rw [hk]
      exact hI.index _ e (mem_zrem.mp he').1
    · rw [if_neg hk] at he'
      exact hI.index k e he'
  nodup := by
    intro k
    show ((if k = key then zrem (s.zsets key) member else s.zsets k).map Z.Member).Nodup
    by_cases hk : k = key
    · rw [if_pos hk]
      exact zrem_nodup _ (hI.nodup _)
    · rw [if_neg hk]
      exact hI.nodup k
  records := hI.records
  canon := hI.canon

theorem Inv_zdrop {q : Queue} {s : Store} (hI : Inv q s) (key member : String) :
    Inv q (s.zdrop key member) :=
  { toConsistent := Consistent_zdrop hI.toConsistent key member, healthy := hI.healthy }

theorem NotIndexed_zdrop {q : Queue} {s : Store} (hI : Consistent q s) {key : String} {m : Z}
    (hm : m ∈ s.zsets key) : NotIndexed (s.zdrop key m.Member) m.Member := by
  intro k e he
  have he' : e ∈ (if k = key then zrem (s.zsets key) m.Member else s.zsets k) := he
  by_cases hk : k = key
  · rw [if_pos hk] at he'
    exact (mem_zrem.mp he').2
  · rw [if_neg hk] at he'
    intro hc
    obtain ⟨j1, h1, -, h3, -, -⟩ := hI.index k e he'
    obtain ⟨j2, g1, -, g3, -, -⟩ := hI.index key m hm
    rw [hc, g1] at h1
    cases h1
    exact hk (h3.trans g3.symm)

/-- What `Dequeue` does on a consistent server state. -/
theorem Dequeue_inv {q : Queue} {s : Store} (hI : Inv q s) (jobType : String) :
    (s.zsets (q.queueKey jobType) = [] ∧ q.Dequeue s jobType = ((none, none), s)) ∨
    ∃ m j, zmax (s.zsets (q.queueKey jobType)) = some m ∧ m ∈ s.zsets (q.queueKey jobType) ∧
      s.strings (q.jobKey j.ID) = some (Blob.json j) ∧ j.ID = m.Member ∧
      q.queueKey jobType = q.queueKey j.Typ ∧ Waiting j ∧ m.Score = score j ∧
      q.Dequeue s jobType = ((some j, none), s.zdrop (q.queueKey jobType) j.ID) ∧
      Inv q (s.zdrop (q.queueKey jobType) j.ID) ∧
      NotIndexed (s.zdrop (q.queueKey jobType) j.ID) j.ID := by
  cases hz : zmax (s.zsets (q.queueKey jobType)) with
  | none =>
    left
    exact ⟨zmax_eq_none hz, Dequeue_healthy_empty q hI.healthy jobType hz⟩
  | some m =>
    right
    have hm := zmax_mem hz
    obtain ⟨j, h1, h2, h3, h4, h5⟩ := hI.index _ m hm
    refine ⟨m, j, rfl, hm, ?_, h2, h3, h4, h5, ?_, ?_, ?_⟩
    · rw [h2]; exact h1
    · rw [h2]; exact Dequeue_healthy_some q hI.healthy jobType hz h1
    · rw [h2]; exact Inv_zdrop hI _ _
    · rw [h2]; exact NotIndexed_zdrop hI.toConsistent hm

/-- The execution of a job on a healthy server, written out. -/
theorem executeJob_healthy (w : Worker) {s : Store} (hs : s.faults = []) (j : Job)
    (hp : Canonical j) (h : Handler) (tStart tDone : Int) :
    w.executeJob s j h tStart tDone =
      (let j1 := j.MarkStarted tStart
       let k := w.queue.jobKey j.ID
       let s1 := s.put k (Blob.json j1)
       match h j1 with
       | some msg =>
         let j2 := j1.MarkFailed msg
         let s2 := s1.put k (Blob.json j2)
         if j2.ShouldRetry then
           let j3 := { j2 with Status := StatusRetrying }
           { err := none, job := some j3,
             store := (s2.put k (Blob.json j3)).zput (w.queue.queueKey j.Typ)
               { Score := score j, Member := j.ID },
             calls := [j1], mem := [j, j1, j2, j3] }
         else
           { err := some msg, job := some j2, store := s2, calls := [j1], mem := [j, j1, j2] }
       | none =>
         let j2 := j1.MarkCompleted tDone
         { err := none, job := some j2, store := s1.put k (Blob.json j2), calls := [j1],
           mem := [j, j1, j2] }) := by
  unfold Worker.executeJob
  have e1 := Update_healthy w.queue hs (j.MarkStarted tStart) hp
  simp only [e1]
  cases hh : h (j.MarkStarted tStart) with
  | none =>
    simp only []
    have hs1 : (s.put (w.queue.jobKey (j.MarkStarted tStart).ID)
        (Blob.json (j.MarkStarted tStart))).faults = [] := hs
    rw [Update_healthy w.queue hs1 ((j.MarkStarted tStart).MarkCompleted tDone) hp]
    rfl
  | some msg =>
    simp only []
    have hs1 : (s.put (w.queue.jobKey (j.MarkStarted tStart).ID)
        (Blob.json (j.MarkStarted tStart))).faults = [] := hs
    rw [Update_healthy w.queue hs1 ((j.MarkStarted tStart).MarkFailed msg) hp]
    have hs2 : ((s.put (w.queue.jobKey (j.MarkStarted tStart).ID)
        (Blob.json (j.MarkStarted tStart))).put
          (w.queue.jobKey ((j.MarkStarted tStart).MarkFailed msg).ID)
          (Blob.json ((j.MarkStarted tStart).MarkFailed msg))).faults = [] := hs
    rw [Requeue_healthy w.queue hs2 ((j.MarkStarted tStart).MarkFailed msg) hp]
    rfl

theorem MarkStarted_attempts {j : Job} (hw : Waiting j) (now : Int) :
    (j.MarkStarted now).Attempts = j.Attempts + 1 := by
  obtain ⟨h0, h1, h2, -, -⟩ := hw
  exact wrapInt_succ h0 h1 h2

theorem MarkStarted_wellFormed {j : Job} (hw : Waiting j) (now : Int) :
    WellFormed (j.MarkStarted now) := by
  have e := MarkStarted_attempts hw now
  obtain ⟨h0, h1, h2, h3, -⟩ := hw
  refine ⟨?_, ?_, h2, fun hc => absurd h3 hc⟩
  · rw [e]; omega
  · rw [e]; show j.Attempts + 1 ≤ j.MaxAttempts; omega

theorem Waiting_wellFormed {j : Job} (hw : Waiting j) : WellFormed j := by
  obtain ⟨h0, h1, h2, h3, h4⟩ := hw
  exact ⟨h0, le_of_lt h1, h2, fun hc => absurd h3 hc⟩

theorem executeJob_inv {q : Queue} {s : Store} (hI : Inv q s) (w : Worker) (hq : w.queue = q)
    {j : Job} (hn : NotIndexed s j.ID) (hw : Waiting j) (hp : Canonical j) (h : Handler)
    (tStart tDone : Int) :
    Inv q (w.executeJob s j h tStart tDone).store := by
  rw [executeJob_healthy w hI.healthy j hp, hq]
  have hb1 := MarkStarted_wellFormed hw tStart
  have I1 : Inv q (s.put (q.jobKey j.ID) (Blob.json (j.MarkStarted tStart))) :=
    Inv_put hI (j := j.MarkStarted tStart) hn hb1 hp
  have N1 : NotIndexed (s.put (q.jobKey j.ID) (Blob.json (j.MarkStarted tStart))) j.ID := hn
  simp only []
  cases hh : h (j.MarkStarted tStart) with
  | none =>
    simp only []
    exact Inv_put I1 (j := (j.MarkStarted tStart).MarkCompleted tDone) N1
      ⟨hb1.1, hb1.2.1, hb1.2.2.1, fun _ => rfl⟩ hp
  | some msg =>
    simp only []
    have I2 := Inv_put I1 (j := (j.MarkStarted tStart).MarkFailed msg) N1
      ⟨hb1.1, hb1.2.1, hb1.2.2.1, fun hc => absurd hw.2.2.2.1 hc⟩ hp
    split
    · rename_i hr
      have hlt : (j.MarkStarted tStart).Attempts < j.MaxAttempts := by
        simpa [Job.ShouldRetry, Job.MarkFailed] using hr
      have W3 : Waiting { (j.MarkStarted tStart).MarkFailed msg with Status := StatusRetrying } :=
        ⟨hb1.1, hlt, hb1.2.2.1, hw.2.2.2.1, Or.inr rfl⟩
      have I3 := Inv_put I2
        (j := { (j.MarkStarted tStart).MarkFailed msg with Status := StatusRetrying }) N1
        (Waiting_wellFormed W3) hp
      exact Inv_zput I3
        (j := { (j.MarkStarted tStart).MarkFailed msg with Status := StatusRetrying })
        (by simp [Store.put]) W3
    · exact I2

theorem processOne_inv {q : Queue} {s : Store} (hI : Inv q s) (w : Worker) (hq : w.queue = q)
    (jobType : String) (tStart tDone : Int) :
    Inv q (w.processOne s jobType tStart tDone).store := by
  unfold Worker.processOne
  rw [hq]
  rcases Dequeue_inv hI jobType with ⟨-, hd⟩ | ⟨m, j, -, -, hr, -, -, hw, -, hd, hI1, hn1⟩
  · rw [hd]; exact hI
  · rw [hd]
    simp only []
    cases hh : w.handlers jobType with
    | none => exact hI1
    | some h => exact executeJob_inv hI1 w hq hn1 hw (hI.canon _ _ hr) h tStart tDone

theorem Step_inv {q : Queue} {s t : Store} (hI : Inv q s) (h : Step q s t) : Inv q t := by
  obtain ⟨w, jobType, tStart, tDone, hq, rfl⟩ := h
  exact processOne_inv hI w hq jobType tStart tDone

theorem Reach_inv {q : Queue} {s t : Store} (hI : Inv q s) (h : Reach q s t) : Inv q t := by
  induction h with
  | refl => exact hI
  | step _ hs ih => exact Step_inv ih hs

theorem Consistent_empty (q : Queue) : Consistent q Store.empty where
  index := by intro k e he; simp [Store.empty] at he
  nodup := by intro k; simp [Store.empty]
  records := by intro key j h; simp [Store.empty] at h
  canon := by intro key j h; simp [Store.empty] at h

theorem Inv_empty (q : Queue) : Inv q Store.empty :=
  { toConsistent := Consistent_empty q, healthy := rfl }

/-- Enqueueing a waiting job whose ID is not in any index keeps the state consistent. -/
theorem Enqueue_inv {q : Queue} {s : Store} (hI : Inv q s) {j : Job} (hn : NotIndexed s j.ID)
    (hw : Waiting j) (hp : Canonical j) : Inv q (q.Enqueue s j).2 := by
  rw [Enqueue_healthy q hI.healthy j hp]
  exact Inv_zput (Inv_put hI hn (Waiting_wellFormed hw) hp) (by simp [Store.put]) hw

/-! ## projections of the updated server states -/

@[simp]
theorem put_strings (s : Store) (key : String) (v : Blob) (k : String) :
    (s.put key v).strings k = if k = key then some v else s.strings k := rfl

@[simp]
theorem put_zsets (s : Store) (key : String) (v : Blob) :
    (s.put key v).zsets = s.zsets := rfl

@[simp]
theorem put_faults (s : Store) (key : String) (v : Blob) :
    (s.put key v).faults = s.faults := rfl

@[simp]
theorem put_journal (s : Store) (key : String) (v : Blob) :
    (s.put key v).journal = (key, v) :: s.journal := rfl

@[simp]
theorem zput_strings (s : Store) (key : String) (e : Z) :
    (s.zput key e).strings = s.strings := rfl

@[simp]
theorem zput_zsets (s : Store) (key : String) (e : Z) (k : String) :
    (s.zput key e).zsets k = if k = key then e :: zrem (s.zsets key) e.Member else s.zsets k :=
  rfl

@[simp]
theorem zput_faults (s : Store) (key : String) (e : Z) :
    (s.zput key e).faults = s.faults := rfl

@[simp]
theorem zput_journal (s : Store) (key : String) (e : Z) :
    (s.zput key e).journal = s.journal := rfl

@[simp]
theorem zdrop_strings (s : Store) (key member : String) :
    (s.zdrop key member).strings = s.strings := rfl

@[simp]
theorem zdrop_zsets (s : Store) (key member : String) (k : String) :
    (s.zdrop key member).zsets k = if k = key then zrem (s.zsets key) member else s.zsets k :=
  rfl

@[simp]
theorem zdrop_faults (s : Store) (key member : String) :
    (s.zdrop key member).faults = s.faults := rfl

@[simp]
theorem zdrop_journal (s : Store) (key member : String) :
    (s.zdrop key member).journal = s.journal := rfl

theorem score_congr {a b : Job} (hp : a.Priority = b.Priority) (ht : a.CreatedAt = b.CreatedAt) :
    score a = score b := by
  rw [score_eq, score_eq, hp, ht]

theorem zrem_single (e : Z) : zrem [e] e.Member = [] := by
  simp [zrem]

/-! ## one worker step on a consistent server, case by case -/

theorem executeJob_cases (w : Worker) {s : Store} (hs : s.faults = []) {j : Job} (hw : Waiting j)
    (hp : Canonical j) (h : Handler) (tStart tDone : Int) :
    (h (j.MarkStarted tStart) = none ∧
      w.executeJob s j h tStart tDone =
        { err := none, job := some ((j.MarkStarted tStart).MarkCompleted tDone),
          store := (s.put (w.queue.jobKey j.ID) (Blob.json (j.MarkStarted tStart))).put
            (w.queue.jobKey j.ID) (Blob.json ((j.MarkStarted tStart).MarkCompleted tDone)),
          calls := [j.MarkStarted tStart],
          mem := [j, j.MarkStarted tStart, (j.MarkStarted tStart).MarkCompleted tDone] }) ∨
    ∃ msg, h (j.MarkStarted tStart) = some msg ∧
      ((j.Attempts + 1 < j.MaxAttempts ∧
        w.executeJob s j h tStart tDone =
          { err := none,
            job := some { (j.MarkStarted tStart).MarkFailed msg with Status := StatusRetrying },
            store := (((s.put (w.queue.jobKey j.ID) (Blob.json (j.MarkStarted tStart))).put
              (w.queue.jobKey j.ID) (Blob.json ((j.MarkStarted tStart).MarkFailed msg))).put
              (w.queue.jobKey j.ID)
              (Blob.json { (j.MarkStarted tStart).MarkFailed msg with
                Status := StatusRetrying })).zput
              (w.queue.queueKey j.Typ) (entry j),
            calls := [j.MarkStarted tStart],
            mem := [j, j.MarkStarted tStart, (j.MarkStarted tStart).MarkFailed msg,
              { (j.MarkStarted tStart).MarkFailed msg with Status := StatusRetrying }] }) ∨
       (j.Attempts + 1 = j.MaxAttempts ∧
        w.executeJob s j h tStart tDone =
          { err := some msg, job := some ((j.MarkStarted tStart).MarkFailed msg),
            store := (s.put (w.queue.jobKey j.ID) (Blob.json (j.MarkStarted tStart))).put
              (w.queue.jobKey j.ID) (Blob.json ((j.MarkStarted tStart).MarkFailed msg)),
            calls := [j.MarkStarted tStart],
            mem := [j, j.MarkStarted tStart, (j.MarkStarted tStart).MarkFailed msg] })) := by
  have hatt := MarkStarted_attempts hw tStart
  rw [executeJob_healthy w hs j hp]
  simp only []
  cases hh : h (j.MarkStarted tStart) with
  | none => left; exact ⟨rfl, rfl⟩
  | some msg =>
    right
    refine ⟨msg, rfl, ?_⟩
    by_cases hlt : j.Attempts + 1 < j.MaxAttempts
    · left
      have hsr : ((j.MarkStarted tStart).MarkFailed msg).ShouldRetry = true := by
        simp only [Job.ShouldRetry, decide_eq_true_eq]
        show (j.MarkStarted tStart).Attempts < j.MaxAttempts
        rw [hatt]; exact hlt
      refine ⟨hlt, ?_⟩
      simp only [hsr, if_true]
      rfl
    · right
      have hsr : ((j.MarkStarted tStart).MarkFailed msg).ShouldRetry = false := by
        simp only [Job.ShouldRetry, decide_eq_false_iff_not]
        show ¬ (j.MarkStarted tStart).Attempts < j.MaxAttempts
        rw [hatt]; exact hlt
      refine ⟨by have := hw.2.1; omega, ?_⟩
      simp only [hsr]
      rfl

/-- The possible courses of one worker step on a consistent server: nothing to do, or a
waiting job `j` is claimed and then dropped (no handler) or executed. -/
theorem processOne_cases {q : Queue} {s : Store} (hI : Inv q s) (w : Worker) (hq : w.queue = q)
    (jobType : String) (tStart tDone : Int) :
    (s.zsets (q.queueKey jobType) = [] ∧
      w.processOne s jobType tStart tDone
        = { err := none, job := none, store := s, calls := [], mem := [] }) ∨
    ∃ j, Waiting j ∧ s.strings (q.jobKey j.ID) = some (Blob.json j) ∧
      entry j ∈ s.zsets (q.queueKey jobType) ∧ jobType = j.Typ ∧
      Inv q (s.zdrop (q.queueKey jobType) j.ID) ∧
      NotIndexed (s.zdrop (q.queueKey jobType) j.ID) j.ID ∧
      ((w.handlers jobType = none ∧
        w.processOne s jobType tStart tDone
          = { err := none, job := some j, store := s.zdrop (q.queueKey jobType) j.ID,
              calls := [], mem := [j] }) ∨
       ∃ h, w.handlers jobType = some h ∧
        w.processOne s jobType tStart tDone
          = w.executeJob (s.zdrop (q.queueKey jobType) j.ID) j h tStart tDone) := by
  rcases Dequeue_inv hI jobType with ⟨hz, hd⟩ | ⟨m, j, -, hm, hr, hid, hk, hw, hsc, hd, hI1, hn1⟩
  · left
    refine ⟨hz, ?_⟩
    unfold Worker.processOne
    rw [hq, hd]
  · right
    have hme : m = entry j := by
      cases m
      simp only [entry] at hid hsc ⊢
      rw [hid, hsc]
    refine ⟨j, hw, hr, hme ▸ hm, queueKey_inj q hk, hI1, hn1, ?_⟩
    cases hh : w.handlers jobType with
    | none =>
      left
      refine ⟨rfl, ?_⟩
      unfold Worker.processOne
      rw [hq, hd]
      simp only [hh]
    | some h =>
      right
      refine ⟨h, rfl, ?_⟩
      unfold Worker.processOne
      rw [hq, hd]
      simp only [hh]

/-! ## commands under injected faults -/

@[simp]
theorem tick_strings (s : Store) : s.tick.strings = s.strings := by
  unfold Store.tick Store.nextFault
  split <;> rfl

@[simp]
theorem tick_zsets (s : Store) : s.tick.zsets = s.zsets := by
  unfold Store.tick Store.nextFault
  split <;> rfl

@[simp]
theorem tick_journal (s : Store) : s.tick.journal = s.journal := by
  unfold Store.tick Store.nextFault
  split <;> rfl

theorem Set_cases (s : Store) (key : String) (v : Blob) :
    (∃ msg, s.Set key v = (some (RedisError.Other msg), s.tick)) ∨
    s.Set key v = (none, s.tick.put key v) := by
  unfold Store.Set Store.tick Store.nextFault
  cases s.faults with
  | nil => right; rfl
  | cons f rest =>
    cases f with
    | none => right; rfl
    | some msg => left; exact ⟨msg, rfl⟩

theorem ZAdd_cases (s : Store) (key : String) (e : Z) :
    (∃ msg, s.ZAdd key e = (some (RedisError.Other msg), s.tick)) ∨
    s.ZAdd key e = (none, s.tick.zput key e) := by
  unfold Store.ZAdd Store.tick Store.nextFault
  cases s.faults with
  | nil => right; rfl
  | cons f rest =>
    cases f with
    | none => right; rfl
    | some msg => left; exact ⟨msg, rfl⟩

theorem ZPopMax_cases (s : Store) (key : String) :
    (∃ msg, s.ZPopMax key = (([], some (RedisError.Other msg)), s.tick)) ∨
    (zmax (s.zsets key) = none ∧ s.ZPopMax key = (([], none), s.tick)) ∨
    ∃ m, zmax (s.zsets key) = some m ∧
      s.ZPopMax key = (([m], none), s.tick.zdrop key m.Member) := by
  have hz : s.tick.zsets key = s.zsets key := by rw [tick_zsets]
  unfold Store.ZPopMax
  unfold Store.tick at hz ⊢
  cases hf : s.nextFault with
  | mk f s1 =>
    rw [hf] at hz
    simp only at hz ⊢
    cases f with
    | some msg => left; exact ⟨msg, rfl⟩
    | none =>
      right
      simp only []
      rw [← hz]
      cases hm : zmax (s1.zsets key) with
      | none => left; exact ⟨rfl, rfl⟩
      | some m => right; exact ⟨m, rfl, rfl⟩

theorem Get_cases (s : Store) (key : String) :
    (∃ msg, s.Get key = ((none, some (RedisError.Other msg)), s.tick)) ∨
    (s.strings key = none ∧ s.Get key = ((none, some RedisError.Nil), s.tick)) ∨
    ∃ v, s.strings key = some v ∧ s.Get key = ((some v, none), s.tick) := by
  have hz : s.tick.strings key = s.strings key := by rw [tick_strings]
  unfold Store.Get
  unfold Store.tick at hz ⊢
  cases hf : s.nextFault with
  | mk f s1 =>
    rw [hf] at hz
    simp only at hz ⊢
    cases f with
    | some msg => left; exact ⟨msg, rfl⟩
    | none =>
      right
      simp only []
      rw [← hz]
      cases hm : s1.strings key with
      | none => left; exact ⟨rfl, rfl⟩
      | some v => right; exact ⟨v, rfl, rfl⟩

theorem Consistent_same {q : Queue} {s t : Store} (hC : Consistent q s)
    (h1 : t.strings = s.strings) (h2 : t.zsets = s.zsets) : Consistent q t where
  index := by rw [h1, h2]; exact hC.index
  nodup := by rw [h2]; exact hC.nodup
  records := by rw [h1]; exact hC.records
  canon := by rw [h1]; exact hC.canon

theorem NotIndexed_same {s t : Store} {id : String} (hn : NotIndexed s id)
    (h2 : t.zsets = s.zsets) : NotIndexed t id := by
  unfold NotIndexed
  rw [h2]
  exact hn

theorem Touch_same {q : Queue} {id : String} {ms : List Job} {s t : Store}
    (h1 : t.strings = s.strings) (h2 : t.journal = s.journal) : Touch q id ms s t := by
  refine ⟨fun key => Or.inl (by rw [h1]), fun kv h => Or.inl ?_⟩
  rw [h2] at h
  exact h

theorem Touch_trans {q : Queue} {id : String} {ms : List Job} {s t u : Store}
    (h1 : Touch q id ms s t) (h2 : Touch q id ms t u) : Touch q id ms s u := by
  refine ⟨fun key => ?_, fun kv h => ?_⟩
  · rcases h2.1 key with e | e
    · rcases h1.1 key with e1 | e1
      · left; rw [e, e1]
      · right
        obtain ⟨hk, y, hy, hs⟩ := e1
        exact ⟨hk, y, hy, by rw [e, hs]⟩
    · right; exact e
  · rcases h2.2 kv h with e | e
    · exact h1.2 kv e
    · right; exact e

theorem Touch_put {q : Queue} {ms : List Job} (s : Store) {y : Job} (hy : y ∈ ms) :
    Touch q y.ID ms s (s.put (q.jobKey y.ID) (Blob.json y)) := by
  refine ⟨fun key => ?_, fun kv h => ?_⟩
  · by_cases hk : key = q.jobKey y.ID
    · right; exact ⟨hk, y, hy, by simp [hk]⟩
    · left; simp [hk]
  · simp only [put_journal, List.mem_cons] at h
    rcases h with rfl | h
    · right; exact ⟨y, hy, rfl⟩
    · left; exact h

theorem Update_step {q : Queue} {s : Store} (hC : Consistent q s) (ms : List Job) {j : Job}
    (hn : NotIndexed s j.ID) (hb : WellFormed j) (hp : Canonical j) (hm : j ∈ ms) :
    Consistent q (q.Update s j).2 ∧ NotIndexed (q.Update s j).2 j.ID ∧
      Touch q j.ID ms s (q.Update s j).2 := by
  have hCt : Consistent q s.tick := Consistent_same hC (tick_strings s) (tick_zsets s)
  have hnt : NotIndexed s.tick j.ID := NotIndexed_same hn (tick_zsets s)
  have hTt : Touch q j.ID ms s s.tick := Touch_same (tick_strings s) (tick_journal s)
  unfold Queue.Update
  rw [Marshal_canonical hp]
  rcases Set_cases s (q.jobKey j.ID) (Blob.json j) with ⟨msg, h⟩ | h
  · simp only [h]
    exact ⟨hCt, hnt, hTt⟩
  · simp only [h]
    exact ⟨Consistent_put hCt hnt hb hp, hnt, Touch_trans hTt (Touch_put s.tick hm)⟩

theorem Enqueue_step {q : Queue} {s : Store} (hC : Consistent q s) (ms : List Job) {j : Job}
    (hn : NotIndexed s j.ID) (hw : Waiting j) (hp : Canonical j) (hm : j ∈ ms) :
    Consistent q (q.Enqueue s j).2 ∧ Touch q j.ID ms s (q.Enqueue s j).2 := by
  have hCt : Consistent q s.tick := Consistent_same hC (tick_strings s) (tick_zsets s)
  have hnt : NotIndexed s.tick j.ID := NotIndexed_same hn (tick_zsets s)
  have hTt : Touch q j.ID ms s s.tick := Touch_same (tick_strings s) (tick_journal s)
  unfold Queue.Enqueue
  rw [Marshal_canonical hp]
  rcases Set_cases s (q.jobKey j.ID) (Blob.json j) with ⟨msg, h⟩ | h
  · simp only [h]
    exact ⟨hCt, hTt⟩
  · simp only [h]
    have hC1 : Consistent q (s.tick.put (q.jobKey j.ID) (Blob.json j)) :=
      Consistent_put hCt hnt (Waiting_wellFormed hw) hp
    have hT1 : Touch q j.ID ms s (s.tick.put (q.jobKey j.ID) (Blob.json j)) :=
      Touch_trans hTt (Touch_put s.tick hm)
    have hC2 : Consistent q (s.tick.put (q.jobKey j.ID) (Blob.json j)).tick :=
      Consistent_same hC1 (tick_strings _) (tick_zsets _)
    have hT2 : Touch q j.ID ms s (s.tick.put (q.jobKey j.ID) (Blob.json j)).tick :=
      Touch_trans hT1 (Touch_same (tick_strings _) (tick_journal _))
    rcases ZAdd_cases (s.tick.put (q.jobKey j.ID) (Blob.json j)) (q.queueKey j.Typ)
      { Score := score j, Member := j.ID } with ⟨msg, h2⟩ | h2
    · simp only [h2]
      exact ⟨hC2, hT2⟩
    · simp only [h2]
      refine ⟨Consistent_zput hC2 (by simp) hw, ?_⟩
      exact Touch_trans hT2 (Touch_same (zput_strings _ _ _) (zput_journal _ _ _))

theorem Dequeue_step {q : Queue} {s : Store} (hC : Consistent q s) (jobType : String) :
    Consistent q (q.Dequeue s jobType).2 ∧
    (q.Dequeue s jobType).2.strings = s.strings ∧
    (q.Dequeue s jobType).2.journal = s.journal ∧
    ∀ j, (q.Dequeue s jobType).1.1 = some j →
      (q.Dequeue s jobType).1.2 = none ∧ Waiting j ∧
      s.strings (q.jobKey j.ID) = some (Blob.json j) ∧
      NotIndexed (q.Dequeue s jobType).2 j.ID ∧ Canonical j ∧
      ∃ m, zmax (s.zsets (q.queueKey jobType)) = some m ∧ m.Member = j.ID := by
  have hCt : Consistent q s.tick := Consistent_same hC (tick_strings s) (tick_zsets s)
  unfold Queue.Dequeue
  rcases ZPopMax_cases s (q.queueKey jobType) with ⟨msg, h⟩ | ⟨-, h⟩ | ⟨m, hz, h⟩
  · simp only [h]
    simp [hCt]
  · simp only [h]
    simp [hCt]
  · simp only [h]
    have hm := zmax_mem hz
    obtain ⟨j, h1, h2, h3, h4, h5⟩ := hC.index _ m hm
    have hmt : m ∈ s.tick.zsets (q.queueKey jobType) := by rw [tick_zsets]; exact hm
    have hC1 : Consistent q (s.tick.zdrop (q.queueKey jobType) m.Member) :=
      Consistent_zdrop hCt _ _
    have hn1 : NotIndexed (s.tick.zdrop (q.queueKey jobType) m.Member) m.Member :=
      NotIndexed_zdrop hCt hmt
    have hC2 : Consistent q (s.tick.zdrop (q.queueKey jobType) m.Member).tick :=
      Consistent_same hC1 (tick_strings _) (tick_zsets _)
    have hn2 : NotIndexed (s.tick.zdrop (q.queueKey jobType) m.Member).tick m.Member :=
      NotIndexed_same hn1 (tick_zsets _)
    have hs1 : (s.tick.zdrop (q.queueKey jobType) m.Member).strings (q.jobKey m.Member)
        = some (Blob.json j) := by simp [h1]
    rcases Get_cases (s.tick.zdrop (q.queueKey jobType) m.Member) (q.jobKey m.Member) with
      ⟨msg, g⟩ | ⟨g0, g⟩ | ⟨v, g0, g⟩
    · simp [g, hC2]
    · rw [hs1] at g0; cases g0
    · rw [hs1] at g0
      cases g0
      simp only [g, Unmarshal]
      simp only [List.length_singleton, one_ne_zero, or_false, reduceCtorEq, if_false]
      refine ⟨hC2, by simp, by simp, ?_⟩
      intro j' hj'
      cases hj'
      refine ⟨trivial, h4, by rw [h2]; exact h1, by rw [h2]; exact hn2, hC.canon _ _ h1,
        m, hz, h2.symm⟩

/-! ## one worker step on a consistent server, faults included -/

/-- The in-memory course of an execution; it does not depend on the server. -/
theorem executeJob_shape (w : Worker) (s : Store) {j : Job} (hw : Waiting j) (h : Handler)
    (tStart tDone : Int) :
    (w.executeJob s j h tStart tDone).calls = [j.MarkStarted tStart] ∧
    ((h (j.MarkStarted tStart) = none ∧
      (w.executeJob s j h tStart tDone).mem
        = [j, j.MarkStarted tStart, (j.MarkStarted tStart).MarkCompleted tDone] ∧
      (w.executeJob s j h tStart tDone).job
        = some ((j.MarkStarted tStart).MarkCompleted tDone)) ∨
     ∃ msg, h (j.MarkStarted tStart) = some msg ∧
      ((j.Attempts + 1 < j.MaxAttempts ∧
        (w.executeJob s j h tStart tDone).mem
          = [j, j.MarkStarted tStart, (j.MarkStarted tStart).MarkFailed msg,
              { (j.MarkStarted tStart).MarkFailed msg with Status := StatusRetrying }] ∧
        (w.executeJob s j h tStart tDone).job
          = some { (j.MarkStarted tStart).MarkFailed msg with Status := StatusRetrying }) ∨
       (j.Attempts + 1 = j.MaxAttempts ∧
        (w.executeJob s j h tStart tDone).mem
          = [j, j.MarkStarted tStart, (j.MarkStarted tStart).MarkFailed msg] ∧
        (w.executeJob s j h tStart tDone).job = some ((j.MarkStarted tStart).MarkFailed msg) ∧
        (w.executeJob s j h tStart tDone).err = some msg))) := by
  have hatt := MarkStarted_attempts hw tStart
  unfold Worker.executeJob
  simp only []
  cases hh : h (j.MarkStarted tStart) with
  | none => exact ⟨rfl, Or.inl ⟨rfl, rfl, rfl⟩⟩
  | some msg =>
    simp only []
    by_cases hlt : j.Attempts + 1 < j.MaxAttempts
    · have hsr : ((j.MarkStarted tStart).MarkFailed msg).ShouldRetry = true := by
        simp only [Job.ShouldRetry, decide_eq_true_eq]
        show (j.MarkStarted tStart).Attempts < j.MaxAttempts
        rw [hatt]; exact hlt
      simp only [hsr, if_true]
      exact ⟨trivial, Or.inr ⟨msg, rfl, Or.inl ⟨hlt, rfl, rfl⟩⟩⟩
    · have hsr : ((j.MarkStarted tStart).MarkFailed msg).ShouldRetry = false := by
        simp only [Job.ShouldRetry, decide_eq_false_iff_not]
        show ¬ (j.MarkStarted tStart).Attempts < j.MaxAttempts
        rw [hatt]; exact hlt
      simp only [hsr]
      exact ⟨rfl, Or.inr ⟨msg, rfl, Or.inr ⟨by have := hw.2.1; omega, rfl, rfl, rfl⟩⟩⟩

theorem executeJob_step {q : Queue} {s : Store} (hC : Consistent q s) (w : Worker)
    (hq : w.queue = q) {j : Job} (hn : NotIndexed s j.ID) (hw : Waiting j) (hp : Canonical j)
    (h : Handler) (tStart tDone : Int) :
    Consistent q (w.executeJob s j h tStart tDone).store ∧
    Touch q j.ID (w.executeJob s j h tStart tDone).mem s
      (w.executeJob s j h tStart tDone).store := by
  have hb1 := MarkStarted_wellFormed hw tStart
  have hatt := MarkStarted_attempts hw tStart
  unfold Worker.executeJob
  rw [hq]
  simp only []
  cases hh : h (j.MarkStarted tStart) with
  | none =>
    simp only []
    obtain ⟨c1, n1, t1⟩ := Update_step hC
      [j, j.MarkStarted tStart, (j.MarkStarted tStart).MarkCompleted tDone]
      (j := j.MarkStarted tStart) hn hb1 hp (by simp)
    obtain ⟨c2, -, t2⟩ := Update_step c1
      [j, j.MarkStarted tStart, (j.MarkStarted tStart).MarkCompleted tDone]
      (j := (j.MarkStarted tStart).MarkCompleted tDone) n1
      ⟨hb1.1, hb1.2.1, hb1.2.2.1, fun _ => rfl⟩ hp (by simp)
    exact ⟨c2, Touch_trans t1 t2⟩
  | some msg =>
    simp only []
    have hb2 : WellFormed ((j.MarkStarted tStart).MarkFailed msg) :=
      ⟨hb1.1, hb1.2.1, hb1.2.2.1, fun hc => absurd hw.2.2.2.1 hc⟩
    by_cases hlt : j.Attempts + 1 < j.MaxAttempts
    · have hsr : ((j.MarkStarted tStart).MarkFailed msg).ShouldRetry = true := by
        simp only [Job.ShouldRetry, decide_eq_true_eq]
        show (j.MarkStarted tStart).Attempts < j.MaxAttempts
        rw [hatt]; exact hlt
      simp only [hsr, if_true]
      have W3 : Waiting { (j.MarkStarted tStart).MarkFailed msg with Status := StatusRetrying } :=
        ⟨hb1.1, by show (j.MarkStarted tStart).Attempts < j.MaxAttempts; rw [hatt]; exact hlt,
          hb1.2.2.1, hw.2.2.2.1, Or.inr rfl⟩
      obtain ⟨c1, n1, t1⟩ := Update_step hC
        [j, j.MarkStarted tStart, (j.MarkStarted tStart).MarkFailed msg,
          { (j.MarkStarted tStart).MarkFailed msg with Status := StatusRetrying }]
        (j := j.MarkStarted tStart) hn hb1 hp (by simp)
      obtain ⟨c2, n2, t2⟩ := Update_step c1
        [j, j.MarkStarted tStart, (j.MarkStarted tStart).MarkFailed msg,
          { (j.MarkStarted tStart).MarkFailed msg with Status := StatusRetrying }]
        (j := (j.MarkStarted tStart).MarkFailed msg) n1 hb2 hp (by simp)
      obtain ⟨c3, t3⟩ := Enqueue_step c2
        [j, j.MarkStarted tStart, (j.MarkStarted tStart).MarkFailed msg,
          { (j.MarkStarted tStart).MarkFailed msg with Status := StatusRetrying }]
        (j := { (j.MarkStarted tStart).MarkFailed msg with Status := StatusRetrying }) n2 W3
        hp (by simp)
      exact ⟨c3, Touch_trans (Touch_trans t1 t2) t3⟩
    · have hsr : ((j.MarkStarted tStart).MarkFailed msg).ShouldRetry = false := by
        simp only [Job.ShouldRetry, decide_eq_false_iff_not]
        show ¬ (j.MarkStarted tStart).Attempts < j.MaxAttempts
        rw [hatt]; exact hlt
      simp only [hsr]
      obtain ⟨c1, n1, t1⟩ := Update_step hC
        [j, j.MarkStarted tStart, (j.MarkStarted tStart).MarkFailed msg]
        (j := j.MarkStarted tStart) hn hb1 hp (by simp)
      obtain ⟨c2, -, t2⟩ := Update_step c1
        [j, j.MarkStarted tStart, (j.MarkStarted tStart).MarkFailed msg]
        (j := (j.MarkStarted tStart).MarkFailed msg) n1 hb2 hp (by simp)
      exact ⟨c2, Touch_trans t1 t2⟩

/-- One worker step on a consistent server, whatever the faults: the server stays
consistent, and either no job is claimed and no record written, or a waiting job `j` with its
record in place is claimed and only states of its in-memory course are written, under its
key. -/
theorem processOne_step {q : Queue} {s : Store} (hC : Consistent q s) (w : Worker)
    (hq : w.queue = q) (jobType : String) (tStart tDone : Int) :
    Consistent q (w.processOne s jobType tStart tDone).store ∧
    (((w.processOne s jobType tStart tDone).mem = [] ∧
      (w.processOne s jobType tStart tDone).calls = [] ∧
      (w.processOne s jobType tStart tDone).job = none ∧
      (w.processOne s jobType tStart tDone).store.strings = s.strings ∧
      (w.processOne s jobType tStart tDone).store.journal = s.journal) ∨
    ∃ j, Waiting j ∧ s.strings (q.jobKey j.ID) = some (Blob.json j) ∧
      Touch q j.ID (w.processOne s jobType tStart tDone).mem s
        (w.processOne s jobType tStart tDone).store ∧
      (((w.processOne s jobType tStart tDone).mem = [j] ∧
        (w.processOne s jobType tStart tDone).calls = [] ∧
        (w.processOne s jobType tStart tDone).job = some j) ∨
       ∃ h s1, w.processOne s jobType tStart tDone = w.executeJob s1 j h tStart tDone)) := by
  obtain ⟨hC1, hs1, hj1, hd⟩ := Dequeue_step hC jobType
  unfold Worker.processOne
  rw [hq]
  rcases hr : q.Dequeue s jobType with ⟨⟨oj, oe⟩, s1⟩
  rw [hr] at hC1 hs1 hj1 hd
  simp only at hC1 hs1 hj1 hd
  cases oj with
  | none =>
    cases oe with
    | none => exact ⟨hC1, Or.inl ⟨rfl, rfl, rfl, hs1, hj1⟩⟩
    | some e => exact ⟨hC1, Or.inl ⟨rfl, rfl, rfl, hs1, hj1⟩⟩
  | some j =>
    obtain ⟨he, hw, hrec, hn, hp, -⟩ := hd j rfl
    subst he
    simp only []
    cases hh : w.handlers jobType with
    | none =>
      simp only []
      exact ⟨hC1, Or.inr ⟨j, hw, hrec, Touch_same hs1 hj1, Or.inl ⟨rfl, trivial, rfl⟩⟩⟩
    | some h =>
      simp only []
      obtain ⟨c, t⟩ := executeJob_step hC1 w hq hn hw hp h tStart tDone
      refine ⟨c, Or.inr ⟨j, hw, hrec, ?_, Or.inr ⟨h, s1, rfl⟩⟩⟩
      exact Touch_trans (Touch_same hs1 hj1) t

theorem Step_consistent {q : Queue} {s t : Store} (hC : Consistent q s) (h : Step q s t) :
    Consistent q t := by
  obtain ⟨w, jobType, tStart, tDone, hq, rfl⟩ := h
  exact (processOne_step hC w hq jobType tStart tDone).1

theorem Reach_consistent {q : Queue} {s t : Store} (hC : Consistent q s) (h : Reach q s t) :
    Consistent q t := by
  induction h with
  | refl => exact hC
  | step _ hs ih => exact Step_consistent ih hs

/-- Enqueueing a waiting job whose ID is in no index keeps the server consistent, whatever
the payload and whether or not the commands succeed. -/
theorem Enqueue_consistent {q : Queue} {s : Store} (hC : Consistent q s) {j : Job}
    (hn : NotIndexed s j.ID) (hw : Waiting j) : Consistent q (q.Enqueue s j).2 := by
  cases hc : j.Payload.compact with
  | none =>
    unfold Queue.Enqueue
    rw [Marshal_invalid hc]
    exact hC
  | some c =>
    have hv : j.validPayload := by
      unfold Job.validPayload
      rw [hc]
      simp
    have hf := written_fields j
    have hw1 : Waiting j.written := by
      unfold Waiting
      rw [hf.2.2.2.2.1, hf.2.2.2.2.2.1, hf.2.2.2.2.2.2.2.2.1, hf.2.2.2.1]
      exact hw
    rw [← Enqueue_written]
    exact (Enqueue_step hC [j.written] (by rw [written_ID]; exact hn) hw1
      (Canonical_written hv) (by simp)).1

/-- The course of one worker step on a consistent server, faults included: the server
stays consistent; either no job is claimed, or a waiting job `j` with its record in place is
claimed, only in-memory states of `j` are written (under its key), and the in-memory course
is one of four: dropped for lack of a handler, completed, failed and requeued, failed for
good. -/
theorem processOne_trace {q : Queue} {s : Store} (hC : Consistent q s) (w : Worker)
    (hq : w.queue = q) (jobType : String) (tStart tDone : Int) :
    Consistent q (w.processOne s jobType tStart tDone).store ∧
    (((w.processOne s jobType tStart tDone).mem = [] ∧
      (w.processOne s jobType tStart tDone).calls = [] ∧
      (w.processOne s jobType tStart tDone).job = none ∧
      (w.processOne s jobType tStart tDone).store.strings = s.strings ∧
      (w.processOne s jobType tStart tDone).store.journal = s.journal) ∨
    ∃ j, Waiting j ∧ s.strings (q.jobKey j.ID) = some (Blob.json j) ∧
      Touch q j.ID (w.processOne s jobType tStart tDone).mem s
        (w.processOne s jobType tStart tDone).store ∧
      (((w.processOne s jobType tStart tDone).mem = [j] ∧
        (w.processOne s jobType tStart tDone).calls = [] ∧
        (w.processOne s jobType tStart tDone).job = some j) ∨
       ((w.processOne s jobType tStart tDone).calls = [j.MarkStarted tStart] ∧
        (w.processOne s jobType tStart tDone).mem
          = [j, j.MarkStarted tStart, (j.MarkStarted tStart).MarkCompleted tDone] ∧
        (w.processOne s jobType tStart tDone).job
          = some ((j.MarkStarted tStart).MarkCompleted tDone)) ∨
       (∃ msg, j.Attempts + 1 < j.MaxAttempts ∧
        (w.processOne s jobType tStart tDone).calls = [j.MarkStarted tStart] ∧
        (w.processOne s jobType tStart tDone).mem
          = [j, j.MarkStarted tStart, (j.MarkStarted tStart).MarkFailed msg,
              { (j.MarkStarted tStart).MarkFailed msg with Status := StatusRetrying }] ∧
        (w.processOne s jobType tStart tDone).job
          = some { (j.MarkStarted tStart).MarkFailed msg with Status := StatusRetrying }) ∨
       (∃ msg, j.Attempts + 1 = j.MaxAttempts ∧
        (w.processOne s jobType tStart tDone).calls = [j.MarkStarted tStart] ∧
        (w.processOne s jobType tStart tDone).mem
          = [j, j.MarkStarted tStart, (j.MarkStarted tStart).MarkFailed msg] ∧
        (w.processOne s jobType tStart tDone).job
          = some ((j.MarkStarted tStart).MarkFailed msg) ∧
        (w.processOne s jobType tStart tDone).err = some msg))) := by
  obtain ⟨hC1, hcase⟩ := processOne_step hC w hq jobType tStart tDone
  refine ⟨hC1, ?_⟩
  rcases hcase with h0 | ⟨j, hw, hrec, hT, hA | ⟨h, s1, hB⟩⟩
  · exact Or.inl h0
  · exact Or.inr ⟨j, hw, hrec, hT, Or.inl hA⟩
  · refine Or.inr ⟨j, hw, hrec, hT, Or.inr ?_⟩
    rw [hB]
    obtain ⟨hc, hsh⟩ := executeJob_shape w s1 hw h tStart tDone
    rcases hsh with ⟨-, hm, hj⟩ | ⟨msg, -, ⟨hl, hm, hj⟩ | ⟨hl, hm, hj, he⟩⟩
    · exact Or.inl ⟨hc, hm, hj⟩
    · exact Or.inr (Or.inl ⟨msg, hl, hc, hm, hj⟩)
    · exact Or.inr (Or.inr ⟨msg, hl, hc, hm, hj, he⟩)

/-! ## what a worker step does to a stored record -/

/-- A stored job is either left alone by a worker step, or it is the waiting job the step
claims; then the step leaves under the same key one of the in-memory states of that job. -/
theorem step_record {q : Queue} {s : Store} (hC : Consistent q s) (w : Worker)
    (hq : w.queue = q) (jobType : String) (tStart tDone : Int) {key : String} {x : Job}
    (hx : s.strings key = some (Blob.json x)) :
    (w.processOne s jobType tStart tDone).store.strings key = some (Blob.json x) ∨
    (Waiting x ∧ (w.processOne s jobType tStart tDone).mem.head? = some x ∧
      ∃ y ∈ (w.processOne s jobType tStart tDone).mem,
        (w.processOne s jobType tStart tDone).store.strings key = some (Blob.json y)) := by
  rcases (processOne_trace hC w hq jobType tStart tDone).2 with
    ⟨-, -, -, hs, -⟩ | ⟨j, hw, hrec, hT, hsh⟩
  · left; rw [hs]; exact hx
  · rcases hT.1 key with e | ⟨hk, y, hy, e⟩
    · left; rw [e]; exact hx
    · right
      have hxj : x = j := by
        rw [hk, hrec] at hx
        cases hx
        rfl
      subst hxj
      refine ⟨hw, ?_, y, hy, e⟩
      rcases hsh with ⟨hm, -⟩ | ⟨-, hm, -⟩ | ⟨msg, -, -, hm, -⟩ | ⟨msg, -, -, hm, -⟩ <;>
        rw [hm] <;> rfl

/-- A stored job that is not waiting (in particular a completed or failed one) is never
touched again. -/
theorem reach_frame {q : Queue} {s u : Store} (hC : Consistent q s) (hr : Reach q s u)
    {key : String} {x : Job} (hx : s.strings key = some (Blob.json x)) (hnw : ¬ Waiting x) :
    u.strings key = some (Blob.json x) := by
  induction hr with
  | refl => exact hx
  | step hst hstep ih =>
    obtain ⟨w, jobType, tStart, tDone, hq, rfl⟩ := hstep
    rcases step_record (Reach_consistent hC hst) w hq jobType tStart tDone ih with h | ⟨hw, -⟩
    · exact h
    · exact absurd hw hnw

/-- The in-memory states of a job during one step agree on everything but status, attempts,
start and completion time and error. -/
theorem step_mem_same {q : Queue} {s : Store} (hC : Consistent q s) (w : Worker)
    (hq : w.queue = q) (jobType : String) (tStart tDone : Int) :
    ∀ x ∈ (w.processOne s jobType tStart tDone).mem,
      ∀ y ∈ (w.processOne s jobType tStart tDone).mem,
        y.ID = x.ID ∧ y.Typ = x.Typ ∧ y.Payload = x.Payload ∧ y.Priority = x.Priority ∧
        y.MaxAttempts = x.MaxAttempts ∧ y.CreatedAt = x.CreatedAt := by
  rcases (processOne_trace hC w hq jobType tStart tDone).2 with
    ⟨hm, -⟩ | ⟨j, -, -, -, ⟨hm, -⟩ | ⟨-, hm, -⟩ | ⟨msg, -, -, hm, -⟩ | ⟨msg, -, -, hm, -⟩⟩
  · rw [hm]; simp
  · rw [hm]; simp
  · rw [hm]
    intro x hx y hy
    simp only [List.mem_cons, List.mem_singleton, List.not_mem_nil, or_false] at hx hy
    rcases hx with rfl | rfl | rfl <;> rcases hy with rfl | rfl | rfl <;>
      exact ⟨rfl, rfl, rfl, rfl, rfl, rfl⟩
  · rw [hm]
    intro x hx y hy
    simp only [List.mem_cons, List.mem_singleton, List.not_mem_nil, or_false] at hx hy
    rcases hx with rfl | rfl | rfl | rfl <;> rcases hy with rfl | rfl | rfl | rfl <;>
      exact ⟨rfl, rfl, rfl, rfl, rfl, rfl⟩
  · rw [hm]
    intro x hx y hy
    simp only [List.mem_cons, List.mem_singleton, List.not_mem_nil, or_false] at hx hy
    rcases hx with rfl | rfl | rfl <;> rcases hy with rfl | rfl | rfl <;>
      exact ⟨rfl, rfl, rfl, rfl, rfl, rfl⟩

/-- Over any number of worker steps a stored job keeps its key and its `createdAt`. -/
theorem reach_createdAt {q : Queue} {s u : Store} (hC : Consistent q s) (hr : Reach q s u)
    {key : String} {x : Job} (hx : s.strings key = some (Blob.json x)) :
    ∃ y, u.strings key = some (Blob.json y) ∧ y.CreatedAt = x.CreatedAt := by
  induction hr with
  | refl => exact ⟨x, hx, rfl⟩
  | step hst hstep ih =>
    obtain ⟨y, hy, hc⟩ := ih
    obtain ⟨w, jobType, tStart, tDone, hq, rfl⟩ := hstep
    have hCt := Reach_consistent hC hst
    rcases step_record hCt w hq jobType tStart tDone hy with h | ⟨-, hhead, z, hzm, hz⟩
    · exact ⟨y, h, hc⟩
    · refine ⟨z, hz, ?_⟩
      have hym : y ∈ (w.processOne _ jobType tStart tDone).mem := List.mem_of_mem_head? hhead
      rw [← hc]
      exact (step_mem_same hCt w hq jobType tStart tDone y hym z hzm).2.2.2.2.2

/-- Attempts during one worker step: within the limit in every in-memory state, written to
the server only as part of such a state, raised by one for the single handler call and left
alone afterwards. -/
theorem step_attempts {q : Queue} {s : Store} (hC : Consistent q s) (w : Worker)
    (hq : w.queue = q) (jobType : String) (tStart tDone : Int) :
    (∀ x ∈ (w.processOne s jobType tStart tDone).mem, x.Attempts ≤ x.MaxAttempts) ∧
    (∀ key x, (key, Blob.json x) ∈ (w.processOne s jobType tStart tDone).store.journal →
      (key, Blob.json x) ∈ s.journal ∨ x ∈ (w.processOne s jobType tStart tDone).mem) ∧
    (w.processOne s jobType tStart tDone).calls.length ≤ 1 ∧
    ∀ c ∈ (w.processOne s jobType tStart tDone).calls, ∃ j rest,
      (w.processOne s jobType tStart tDone).mem = j :: c :: rest ∧
      c.Attempts = j.Attempts + 1 ∧ ∀ x ∈ rest, x.Attempts = c.Attempts := by
  have hjournal : ∀ (id : String), Touch q id (w.processOne s jobType tStart tDone).mem s
      (w.processOne s jobType tStart tDone).store →
      ∀ key x, (key, Blob.json x) ∈ (w.processOne s jobType tStart tDone).store.journal →
        (key, Blob.json x) ∈ s.journal ∨ x ∈ (w.processOne s jobType tStart tDone).mem := by
    intro id hT key x hx
    rcases hT.2 _ hx with h | ⟨y, hy, h⟩
    · exact Or.inl h
    · right
      simp only [Prod.mk.injEq, Blob.json.injEq] at h
      rw [h.2]; exact hy
  rcases (processOne_trace hC w hq jobType tStart tDone).2 with
    ⟨hm, hc, -, -, hj⟩ | ⟨j, hw, -, hT, hsh⟩
  · rw [hm, hc, hj]
    simp
  · have hatt := MarkStarted_attempts hw tStart
    have hlt := hw.2.1
    have hmx : (j.MarkStarted tStart).MaxAttempts = j.MaxAttempts := rfl
    refine ⟨?_, hjournal _ hT, ?_, ?_⟩
    · rcases hsh with ⟨hm, -⟩ | ⟨-, hm, -⟩ | ⟨msg, hl, -, hm, -⟩ | ⟨msg, hl, -, hm, -⟩
      · rw [hm]
        intro x hx
        simp only [List.mem_singleton] at hx
        subst hx
        omega
      · rw [hm]
        intro x hx
        simp only [List.mem_cons, List.mem_singleton, List.not_mem_nil, or_false] at hx
        rcases hx with rfl | rfl | rfl
        · omega
        · rw [hatt, hmx]; omega
        · show (j.MarkStarted tStart).Attempts ≤ j.MaxAttempts
          rw [hatt]; omega
      · rw [hm]
        intro x hx
        simp only [List.mem_cons, List.mem_singleton, List.not_mem_nil, or_false] at hx
        rcases hx with rfl | rfl | rfl | rfl
        · omega
        · rw [hatt, hmx]; omega
        · show (j.MarkStarted tStart).Attempts ≤ j.MaxAttempts
          rw [hatt]; omega
        · show (j.MarkStarted tStart).Attempts ≤ j.MaxAttempts
          rw [hatt]; omega
      · rw [hm]
        intro x hx
        simp only [List.mem_cons, List.mem_singleton, List.not_mem_nil, or_false] at hx
        rcases hx with rfl | rfl | rfl
        · omega
        · rw [hatt, hmx]; omega
        · show (j.MarkStarted tStart).Attempts ≤ j.MaxAttempts
          rw [hatt]; omega
    · rcases hsh with ⟨-, hc, -⟩ | ⟨hc, -⟩ | ⟨msg, -, hc, -⟩ | ⟨msg, -, hc, -⟩ <;>
        rw [hc] <;> simp
    · rcases hsh with ⟨-, hc, -⟩ | ⟨hc, hm, -⟩ | ⟨msg, -, hc, hm, -⟩ | ⟨msg, -, hc, hm, -⟩
      · rw [hc]; simp
      · rw [hc, hm]
        intro c hc'
        simp only [List.mem_singleton] at hc'
        subst hc'
        exact ⟨j, _, rfl, hatt, by intro x hx; simp at hx; subst hx; rfl⟩
      · rw [hc, hm]
        intro c hc'
        simp only [List.mem_singleton] at hc'
        subst hc'
        refine ⟨j, _, rfl, hatt, ?_⟩
        intro x hx
        simp only [List.mem_cons, List.mem_singleton, List.not_mem_nil, or_false] at hx
        rcases hx with rfl | rfl <;> rfl
      · rw [hc, hm]
        intro c hc'
        simp only [List.mem_singleton] at hc'
        subst hc'
        exact ⟨j, _, rfl, hatt, by intro x hx; simp at hx; subst hx; rfl⟩

theorem NewJob_ok {uuid jobType bytes : String} {now : Int} {j0 : Job}
    (hj : NewJob uuid now jobType (.ok bytes) = .ok j0) :
    j0.ID = uuid ∧ j0.Status = StatusPending ∧ j0.Attempts = 0 ∧ j0.CompletedAt = none := by
  simp only [NewJob, Except.ok.injEq] at hj
  subst hj
  exact ⟨rfl, rfl, rfl, rfl⟩

/-- The four outcomes of `Enqueue`: the payload is not valid JSON and nothing is sent to the
server; the `SET` fails; the `SET` succeeds and the `ZADD` fails; both succeed. -/
theorem Enqueue_outcomes (q : Queue) (s : Store) (j : Job) :
    (j.Payload.compact = none ∧
      q.Enqueue s j = (some ("marshal job: "
        ++ "json: error calling MarshalJSON for type json.RawMessage"), s)) ∨
    (j.validPayload ∧
      ((∃ msg, q.Enqueue s j = (some msg, s.tick)) ∨
       (∃ msg, q.Enqueue s j
          = (some msg, (s.tick.put (q.jobKey j.ID) (Blob.json j.written)).tick)) ∨
       q.Enqueue s j = (none, (s.tick.put (q.jobKey j.ID) (Blob.json j.written)).tick.zput
          (q.queueKey j.Typ) { Score := score j, Member := j.ID }))) := by
  cases hc : j.Payload.compact with
  | none =>
    left
    refine ⟨rfl, ?_⟩
    unfold Queue.Enqueue
    rw [Marshal_invalid hc]
  | some c =>
    right
    have hv : j.validPayload := by
      unfold Job.validPayload
      rw [hc]
      simp
    refine ⟨hv, ?_⟩
    unfold Queue.Enqueue
    rw [Marshal_valid hv]
    rcases Set_cases s (q.jobKey j.ID) (Blob.json j.written) with ⟨msg, h⟩ | h
    · left
      simp only [h]
      exact ⟨_, rfl⟩
    · right
      simp only [h]
      rcases ZAdd_cases (s.tick.put (q.jobKey j.ID) (Blob.json j.written)) (q.queueKey j.Typ)
        { Score := score j, Member := j.ID } with ⟨msg, h2⟩ | h2
      · left
        simp only [h2]
        exact ⟨_, rfl⟩
      · right
        simp only [h2]

/-! ## the course of a worker step as a function of the handler's result -/

/-- The in-memory course of an execution, whatever the server does: the handler is invoked
once, on the started job; its success leads to `completed`; its error leads to `failed` with
the handler's message, followed by `retrying` exactly when `ShouldRetry` holds of the failed
job, in which case the error returned is that of `Requeue`; otherwise the handler's error is
returned. -/
theorem executeJob_course (w : Worker) (s : Store) (j : Job) (h : Handler) (tStart tDone : Int) :
    (w.executeJob s j h tStart tDone).calls = [j.MarkStarted tStart] ∧
    (w.executeJob s j h tStart tDone).mem.head? = some j ∧
    (h (j.MarkStarted tStart) = none →
      (w.executeJob s j h tStart tDone).mem
        = [j, j.MarkStarted tStart, (j.MarkStarted tStart).MarkCompleted tDone] ∧
      (w.executeJob s j h tStart tDone).job
        = some ((j.MarkStarted tStart).MarkCompleted tDone) ∧
      (w.executeJob s j h tStart tDone).err = none) ∧
    ∀ msg, h (j.MarkStarted tStart) = some msg →
      (((j.MarkStarted tStart).MarkFailed msg).ShouldRetry = true →
        (w.executeJob s j h tStart tDone).mem
          = [j, j.MarkStarted tStart, (j.MarkStarted tStart).MarkFailed msg,
              { (j.MarkStarted tStart).MarkFailed msg with Status := StatusRetrying }] ∧
        (w.executeJob s j h tStart tDone).job
          = some { (j.MarkStarted tStart).MarkFailed msg with Status := StatusRetrying }) ∧
      (((j.MarkStarted tStart).MarkFailed msg).ShouldRetry = false →
        (w.executeJob s j h tStart tDone).mem
          = [j, j.MarkStarted tStart, (j.MarkStarted tStart).MarkFailed msg] ∧
        (w.executeJob s j h tStart tDone).job = some ((j.MarkStarted tStart).MarkFailed msg) ∧
        (w.executeJob s j h tStart tDone).err = some msg) := by
  unfold Worker.executeJob
  simp only []
  cases hh : h (j.MarkStarted tStart) with
  | none =>
    refine ⟨rfl, rfl, fun _ => ⟨rfl, rfl, rfl⟩, ?_⟩
    intro msg hm
    cases hm
  | some msg =>
    simp only []
    by_cases hsr : ((j.MarkStarted tStart).MarkFailed msg).ShouldRetry = true
    · rw [if_pos hsr]
      refine ⟨rfl, rfl, fun hc => (by cases hc), ?_⟩
      intro m hm
      cases hm
      exact ⟨fun _ => ⟨rfl, rfl⟩, fun hc => (by rw [hsr] at hc; cases hc)⟩
    · rw [if_neg hsr]
      refine ⟨rfl, rfl, fun hc => (by cases hc), ?_⟩
      intro m hm
      cases hm
      exact ⟨fun hc => absurd hc hsr, fun _ => ⟨rfl, rfl, rfl⟩⟩

/-- The in-memory course of one worker step that claimed the job `j`, whatever the server
does: without a handler the job is left as it is; with a handler `h` the course is that of
`executeJob` and is determined by the result of `h` on the started job. -/
theorem processOne_course (w : Worker) (s : Store) (jobType : String) (tStart tDone : Int)
    (j : Job) (hj : (w.processOne s jobType tStart tDone).mem.head? = some j) :
    (w.handlers jobType = none →
      (w.processOne s jobType tStart tDone).mem = [j] ∧
      (w.processOne s jobType tStart tDone).calls = []) ∧
    ∀ h, w.handlers jobType = some h →
      (w.processOne s jobType tStart tDone).calls = [j.MarkStarted tStart] ∧
      (h (j.MarkStarted tStart) = none →
        (w.processOne s jobType tStart tDone).mem
          = [j, j.MarkStarted tStart, (j.MarkStarted tStart).MarkCompleted tDone] ∧
        (w.processOne s jobType tStart tDone).job
          = some ((j.MarkStarted tStart).MarkCompleted tDone) ∧
        (w.processOne s jobType tStart tDone).err = none) ∧
      ∀ msg, h (j.MarkStarted tStart) = some msg →
        (((j.MarkStarted tStart).MarkFailed msg).ShouldRetry = true →
          (w.processOne s jobType tStart tDone).mem
            = [j, j.MarkStarted tStart, (j.MarkStarted tStart).MarkFailed msg,
                { (j.MarkStarted tStart).MarkFailed msg with Status := StatusRetrying }] ∧
          (w.processOne s jobType tStart tDone).job
            = some { (j.MarkStarted tStart).MarkFailed msg with Status := StatusRetrying }) ∧
        (((j.MarkStarted tStart).MarkFailed msg).ShouldRetry = false →
          (w.processOne s jobType tStart tDone).mem
            = [j, j.MarkStarted tStart, (j.MarkStarted tStart).MarkFailed msg] ∧
          (w.processOne s jobType tStart tDone).job
            = some ((j.MarkStarted tStart).MarkFailed msg) ∧
          (w.processOne s jobType tStart tDone).err = some msg) := by
  unfold Worker.processOne at hj ⊢
  rcases hr : w.queue.Dequeue s jobType with ⟨⟨oj, oe⟩, s1⟩
  rw [hr] at hj
  cases oe with
  | some e => simp at hj
  | none =>
    cases oj with
    | none => simp at hj
    | some j0 =>
      simp only [] at hj ⊢
      cases hh : w.handlers jobType with
      | none =>
        rw [hh] at hj
        simp only [List.head?_cons, Option.some.injEq] at hj
        subst hj
        refine ⟨fun _ => ⟨rfl, rfl⟩, ?_⟩
        intro h hc
        cases hc
      | some h0 =>
        rw [hh] at hj
        simp only [] at hj
        obtain ⟨c1, c2, c3, c4⟩ := executeJob_course w s1 j0 h0 tStart tDone
        rw [c2] at hj
        cases hj
        refine ⟨fun hc => (by cases hc), ?_⟩
        intro h hc
        cases hc
        exact ⟨c1, c3, c4⟩

/-! ## C7: middleware chaining -/

theorem nested_append {H : Type} (h : H) (a b : List (H → H)) :
    nested h (a ++ b) = nested (nested h b) a := by
  induction a with
  | nil => rfl
  | cons m ms ih => simp [nested, ih]

theorem Chain_loop_eq {H : Type} (middlewares : List (H → H)) :
    ∀ (n : Nat) (h : H), n ≤ middlewares.length →
      Chain.loop middlewares n h = nested h (middlewares.take n) := by
  intro n
  induction n with
  | zero => intro h _; simp [Chain.loop, nested]
  | succ i ih =>
    intro h hle
    have hi : i < middlewares.length := hle
    have hget : middlewares.get? i = some (middlewares.get ⟨i, hi⟩) := List.get?_eq_get hi
    have htake : middlewares.take (i + 1) = middlewares.take i ++ [middlewares.get ⟨i, hi⟩] := by
      rw [List.take_succ]
      simp [List.getElem?_eq_getElem hi]
    unfold Chain.loop
    rw [hget]
    simp only []
    rw [ih _ (Nat.le_of_lt hi), htake, nested_append]
    rfl

/-- C7: `Chain(h, m1, ..., mn)` is `m1(m2(...(mn(h))...))`, the first middleware being the
outermost wrapper, and `Chain(h)` without middlewares is `h`. -/
theorem Chain_eq_nested {H : Type} (h : H) (middlewares : List (H → H)) :
    Chain h middlewares = nested h middlewares ∧
    Chain h middlewares = middlewares.foldr (fun m inner => m inner) h ∧
    Chain h [] = h ∧
    ∀ (m1 : H → H) (rest : List (H → H)), Chain h (m1 :: rest) = m1 (Chain h rest) := by
  have key : ∀ ms : List (H → H), Chain h ms = nested h ms := by
    intro ms
    unfold Chain
    rw [Chain_loop_eq ms ms.length h (le_refl _), List.take_length]
  have fold : ∀ ms : List (H → H), nested h ms = ms.foldr (fun m inner => m inner) h := by
    intro ms
    induction ms with
    | nil => rfl
    | cons m ms ih => simp [nested, ih]
  refine ⟨key _, ?_, rfl, ?_⟩
  · rw [key, fold]
  · intro m1 rest
    rw [key, key]
    rfl

/-! ## C1: priority against age -/

/-- C1 at a concrete input: a job of priority 10 created 100 minutes after a pending job of
priority 5 receives the smaller score, and `Dequeue` returns the job of priority 5 first,
whatever the enqueue order. -/
theorem priority_loses_to_age :
    earlyNormal.Priority < lateHigh.Priority ∧
    score lateHigh < score earlyNormal ∧
    (defaultQueue.Dequeue
      (defaultQueue.Enqueue (defaultQueue.Enqueue Store.empty earlyNormal).2 lateHigh).2
      "email").1 = (some earlyNormal, none) ∧
    (defaultQueue.Dequeue
      (defaultQueue.Enqueue (defaultQueue.Enqueue Store.empty lateHigh).2 earlyNormal).2
      "email").1 = (some earlyNormal, none) := by
  decide

/-! ## C3: empty queue against store failure -/

/-- C3: when the index pop fails with a connection error the reply slice is empty, so
`Dequeue` takes the branch of the empty queue and returns no job and no error.  In general
`Dequeue` returns no job and no error exactly when the reply slice of the pop is empty,
whether the pop succeeded on an empty index or failed. -/
theorem Dequeue_swallows_pop_error (q : Queue) (s : Store) (jobType msg : String)
    (rest : List (Option String)) (hf : s.faults = some msg :: rest) :
    (s.ZPopMax (q.queueKey jobType)).1 = ([], some (RedisError.Other msg)) ∧
    (q.Dequeue s jobType).1 = (none, none) ∧
    ∀ t : Store, (q.Dequeue t jobType).1 = (none, none) ↔
      (t.ZPopMax (q.queueKey jobType)).1.1 = [] := by
  have hp : s.ZPopMax (q.queueKey jobType)
      = (([], some (RedisError.Other msg)), { s with faults := rest }) := by
    unfold Store.ZPopMax Store.nextFault
    rw [hf]
  refine ⟨by rw [hp], ?_, ?_⟩
  · unfold Queue.Dequeue
    rw [hp]
    simp
  · intro t
    unfold Queue.Dequeue
    rcases ZPopMax_cases t (q.queueKey jobType) with ⟨e, h⟩ | ⟨-, h⟩ | ⟨m, -, h⟩
    · simp [h]
    · simp [h]
    · simp only [h]
      rcases Get_cases (t.tick.zdrop (q.queueKey jobType) m.Member) (q.jobKey m.Member) with
        ⟨e, g⟩ | ⟨-, g⟩ | ⟨v, -, g⟩
      · simp [g]
      · simp [g]
      · cases v with
        | json j => simp [g, Unmarshal]
        | raw bytes => simp [g, Unmarshal]

theorem Dequeue_swallows_pop_error_witness :
    unreachable.faults = [some "dial tcp 127.0.0.1:6379: connect: connection refused"] ∧
    (unreachable.ZPopMax (defaultQueue.queueKey "email")).1
      = ([], some (RedisError.Other "dial tcp 127.0.0.1:6379: connect: connection refused")) ∧
    (defaultQueue.Dequeue unreachable "email").1 = (none, none) :=
  ⟨rfl, (Dequeue_swallows_pop_error defaultQueue unreachable "email"
    "dial tcp 127.0.0.1:6379: connect: connection refused" [] rfl).1,
    (Dequeue_swallows_pop_error defaultQueue unreachable "email"
    "dial tcp 127.0.0.1:6379: connect: connection refused" [] rfl).2.1⟩

/-! ## C2: order within a priority band -/

theorem eq_of_member_eq {z : List Z} (hn : (z.map Z.Member).Nodup) {a b : Z} (ha : a ∈ z)
    (hb : b ∈ z) (h : a.Member = b.Member) : a = b :=
  List.inj_on_of_nodup_map hn ha hb h

/-- While an entry of larger score is in the index, `Dequeue` returns a job and it is not
the job of the entry of smaller score. -/
theorem Dequeue_skips_lower {q : Queue} {s : Store} (hI : Inv q s) (jobType : String) {a b : Z}
    (ha : a ∈ s.zsets (q.queueKey jobType)) (hb : b ∈ s.zsets (q.queueKey jobType))
    (hlt : b.Score < a.Score) :
    ∃ j, (q.Dequeue s jobType).1 = (some j, none) ∧ j.ID ≠ b.Member := by
  rcases Dequeue_inv hI jobType with ⟨he, -⟩ | ⟨m, j, hz, hm, -, hid, -, -, -, hd, -, -⟩
  · rw [he] at ha
    simp at ha
  · refine ⟨j, by rw [hd], ?_⟩
    intro hc
    have hmb : m = b := eq_of_member_eq (hI.nodup _) hm hb (by rw [← hid, hc])
    have := zmax_score_ge hz a ha
    rw [hmb] at this
    omega

/-- Whatever the faults, `Dequeue` does not return the job of an entry while an entry of
larger score is in the index. -/
theorem Dequeue_never_lower {q : Queue} {s : Store} (hC : Consistent q s) (jobType : String)
    {a b : Z} (ha : a ∈ s.zsets (q.queueKey jobType)) (hb : b ∈ s.zsets (q.queueKey jobType))
    (hlt : b.Score < a.Score) {j : Job} (hj : (q.Dequeue s jobType).1.1 = some j) :
    j.ID ≠ b.Member := by
  obtain ⟨-, -, -, -, -, m, hz, hid⟩ := (Dequeue_step hC jobType).2.2.2 j hj
  intro hc
  have hmb : m = b := eq_of_member_eq (hC.nodup _) (zmax_mem hz) hb (by rw [hid, hc])
  have := zmax_score_ge hz a ha
  rw [hmb] at this
  omega

/-- C2 fails at a concrete input: two jobs of equal priority created one nanosecond apart
receive the same score, and with both pending `Dequeue` returns the later one first. -/
theorem fifo_lost_below_float_spacing :
    firstIn.Typ = secondIn.Typ ∧ firstIn.Priority = secondIn.Priority ∧
    firstIn.CreatedAt < secondIn.CreatedAt ∧
    ¬ (score secondIn < score firstIn) ∧
    (defaultQueue.Dequeue
      (defaultQueue.Enqueue (defaultQueue.Enqueue Store.empty firstIn).2 secondIn).2
      "email").1 = (some secondIn, none) := by
  decide

/-- C2 as amended: among jobs of equal priority the earlier `createdAt` never gets the
smaller score; for priorities 0 to 9007 and timestamps from `2^60` to `2^61` nanoseconds
(2006 to 2043) more than 256 ns apart the earlier job gets the strictly larger score, and
then `Dequeue` returns a job other than the later one as long as both are in the index of a
consistent server under normal operation; on a consistent server with failing commands
`Dequeue` may return no job, but never the later one while the earlier is in the index. -/
theorem fifo_score_order (a b : Job) (hp : a.Priority = b.Priority)
    (ht : a.CreatedAt < b.CreatedAt) :
    score b ≤ score a ∧
    (0 ≤ a.Priority → a.Priority ≤ 9007 → 2 ^ 60 ≤ a.CreatedAt → b.CreatedAt < 2 ^ 61 →
      a.CreatedAt + 256 < b.CreatedAt →
      score b < score a ∧
      (∀ (q : Queue) (s : Store) (jobType : String), Inv q s →
        { Score := score a, Member := a.ID } ∈ s.zsets (q.queueKey jobType) →
        { Score := score b, Member := b.ID } ∈ s.zsets (q.queueKey jobType) →
        ∃ j, (q.Dequeue s jobType).1 = (some j, none) ∧ j.ID ≠ b.ID) ∧
      ∀ (q : Queue) (s : Store) (jobType : String), Consistent q s →
        { Score := score a, Member := a.ID } ∈ s.zsets (q.queueKey jobType) →
        { Score := score b, Member := b.ID } ∈ s.zsets (q.queueKey jobType) →
        ∀ j, (q.Dequeue s jobType).1.1 = some j → j.ID ≠ b.ID) := by
  refine ⟨score_antitone_time a b hp (le_of_lt ht), ?_⟩
  intro hp0 hp1 h1 h2 hgap
  have hs := score_strict_time a b hp hp0 hp1 h1 h2 hgap
  refine ⟨hs, ?_, ?_⟩
  · intro q s jobType hI ha hb
    exact Dequeue_skips_lower hI jobType ha hb hs
  · intro q s jobType hC ha hb j hj
    exact Dequeue_never_lower hC jobType ha hb hs hj

theorem fifo_score_order_witness :
    firstIn.Priority = thirdIn.Priority ∧ firstIn.CreatedAt < thirdIn.CreatedAt ∧
    score thirdIn ≤ score firstIn ∧ score thirdIn < score firstIn ∧
    ∃ j, (defaultQueue.Dequeue
        (defaultQueue.Enqueue (defaultQueue.Enqueue Store.empty thirdIn).2 firstIn).2
        "email").1 = (some j, none) ∧ j.ID ≠ thirdIn.ID :=
  ⟨rfl, by decide, (fifo_score_order firstIn thirdIn rfl (by decide)).1,
    ((fifo_score_order firstIn thirdIn rfl (by decide)).2 (by decide) (by decide) (by decide)
      (by decide) (by decide)).1,
    ((fifo_score_order firstIn thirdIn rfl (by decide)).2 (by decide) (by decide) (by decide)
      (by decide) (by decide)).2.1 defaultQueue
      (defaultQueue.Enqueue (defaultQueue.Enqueue Store.empty thirdIn).2 firstIn).2 "email"
      (Enqueue_inv (j := firstIn)
        (Enqueue_inv (j := thirdIn) (Inv_empty defaultQueue)
          (by intro k e he; simp [Store.empty] at he)
          ⟨by decide, by decide, by decide, rfl, Or.inl rfl⟩ rfl)
        (by
          intro k e he
          rw [Enqueue_healthy defaultQueue rfl thirdIn rfl] at he
          simp only [zput_zsets, put_zsets, Store.empty, zrem, List.filter_nil] at he
          split at he
          · simp only [List.mem_singleton] at he
            rw [he]
            decide
          · simp at he)
        ⟨by decide, by decide, by decide, rfl, Or.inl rfl⟩ rfl)
      (by decide) (by decide)⟩

/-! ## C4: retry exhaustion -/

theorem processOne_queued {q : Queue} {w : Worker} {h : Handler} {s0 s : Store} {j : Job}
    {a : Int} (hq : w.queue = q) (hh : w.handlers j.Typ = some h) (herr : ∀ x, h x ≠ none)
    (ha0 : 0 ≤ a) (ha : a < j.MaxAttempts) (hmax : j.MaxAttempts < 2 ^ 63)
    (hQ : Queued q s0 j a s) (tStart tDone : Int) :
    ∃ c msg, (w.processOne s j.Typ tStart tDone).calls = [c] ∧ h c = some msg ∧
      (a + 1 < j.MaxAttempts → Queued q s0 j (a + 1) (w.processOne s j.Typ tStart tDone).store) ∧
      (a + 1 = j.MaxAttempts → Exhausted q s0 j msg (w.processOne s j.Typ tStart tDone).store) := by
  obtain ⟨hf, hz, hfr, r, hr, hid, hty, hpr, hct, hmx, hat, hst0, hst1, hcan⟩ := hQ
  have hzm : zmax (s.zsets (q.queueKey j.Typ)) = some { Score := score j, Member := j.ID } := by
    rw [hz]; rfl
  have hr' : s.strings (q.jobKey ({ Score := score j, Member := j.ID } : Z).Member)
      = some (Blob.json r) := hr
  have hd := Dequeue_healthy_some q hf j.Typ hzm hr'
  have hs1f : (s.zdrop (q.queueKey j.Typ) j.ID).faults = [] := hf
  have hatt : (r.MarkStarted tStart).Attempts = a + 1 := by
    show wrapInt (r.Attempts + 1) = a + 1
    rw [hat]; exact wrapInt_succ ha0 ha hmax
  obtain ⟨msg, hmsg⟩ : ∃ msg, h (r.MarkStarted tStart) = some msg := by
    cases hh' : h (r.MarkStarted tStart) with
    | none => exact absurd hh' (herr _)
    | some m => exact ⟨m, rfl⟩
  have hres : w.processOne s j.Typ tStart tDone
      = w.executeJob (s.zdrop (q.queueKey j.Typ) j.ID) r h tStart tDone := by
    unfold Worker.processOne
    rw [hq, hd]
    simp only [hh]
  rw [hres, executeJob_healthy w hs1f r hcan, hq]
  simp only [hmsg]
  have hsc : score r = score j := score_congr hpr hct
  by_cases hlt : a + 1 < j.MaxAttempts
  · have hsr : ((r.MarkStarted tStart).MarkFailed msg).ShouldRetry = true := by
      simp only [Job.ShouldRetry, decide_eq_true_eq]
      show (r.MarkStarted tStart).Attempts < r.MaxAttempts
      rw [hatt, hmx]; exact hlt
    simp only [hsr, if_true]
    refine ⟨r.MarkStarted tStart, msg, rfl, hmsg, fun _ => ?_, fun he => absurd he (by omega)⟩
    refine ⟨hf, ?_, ?_, ?_⟩
    · simp [hid, hty, hsc, hz, zrem_single, zrem]
    · intro k hk
      simp [hty, hk, hfr k hk]
    · refine ⟨{ (r.MarkStarted tStart).MarkFailed msg with Status := StatusRetrying }, ?_,
        hid, hty, hpr, hct, hmx, hatt, fun h0 => absurd h0 (by omega), fun _ => rfl, hcan⟩
      simp [hid]
  · have hsr : ((r.MarkStarted tStart).MarkFailed msg).ShouldRetry = false := by
      simp only [Job.ShouldRetry, decide_eq_false_iff_not]
      show ¬ (r.MarkStarted tStart).Attempts < r.MaxAttempts
      rw [hatt, hmx]; exact hlt
    simp only [hsr]
    refine ⟨r.MarkStarted tStart, msg, rfl, hmsg, fun hc => absurd hc hlt, fun he => ?_⟩
    refine ⟨hf, ?_, ?_, ?_⟩
    · simp [hz, zrem]
    · intro k hk
      simp [hk, hfr k hk]
    · refine ⟨(r.MarkStarted tStart).MarkFailed msg, ?_, rfl, ?_, rfl⟩
      · simp [hid]
      · show (r.MarkStarted tStart).Attempts = j.MaxAttempts
        rw [hatt]; exact he

theorem processOne_exhausted {q : Queue} {w : Worker} {s0 s : Store} {j : Job} {msg : String}
    (hq : w.queue = q) (hE : Exhausted q s0 j msg s) (tStart tDone : Int) :
    w.processOne s j.Typ tStart tDone
      = { err := none, job := none, store := s, calls := [], mem := [] } := by
  obtain ⟨hf, hz, -, -⟩ := hE
  have hzm : zmax (s.zsets (q.queueKey j.Typ)) = none := by rw [hz]; rfl
  unfold Worker.processOne
  rw [hq, Dequeue_healthy_empty q hf j.Typ hzm]

theorem processLoop_exhausted {q : Queue} {w : Worker} {s0 : Store} {j : Job} {msg : String}
    (hq : w.queue = q) (clock : List (Int × Int)) :
    ∀ s, Exhausted q s0 j msg s → w.processLoop j.Typ clock s = (s, []) := by
  induction clock with
  | nil => intro s _; rfl
  | cons t rest ih =>
    intro s hE
    obtain ⟨tStart, tDone⟩ := t
    unfold Worker.processLoop
    simp only [processOne_exhausted hq hE, ih s hE, List.nil_append]

theorem processLoop_queued {q : Queue} {w : Worker} {h : Handler} {s0 : Store} {j : Job}
    (hq : w.queue = q) (hh : w.handlers j.Typ = some h) (herr : ∀ x, h x ≠ none)
    (hmax : j.MaxAttempts < 2 ^ 63) (clock : List (Int × Int)) :
    ∀ (a : Int) (s : Store), 0 ≤ a → a < j.MaxAttempts → Queued q s0 j a s →
      (a + clock.length < j.MaxAttempts →
        (w.processLoop j.Typ clock s).2.length = clock.length ∧
        Queued q s0 j (a + clock.length) (w.processLoop j.Typ clock s).1) ∧
      (j.MaxAttempts ≤ a + clock.length →
        ((w.processLoop j.Typ clock s).2.length : Int) = j.MaxAttempts - a ∧
        ∃ c msg, (w.processLoop j.Typ clock s).2.getLast? = some c ∧ h c = some msg ∧
          Exhausted q s0 j msg (w.processLoop j.Typ clock s).1) := by
  induction clock with
  | nil =>
    intro a s ha0 ha hQ
    refine ⟨fun _ => ⟨rfl, ?_⟩, fun hc => ?_⟩
    · simpa [Worker.processLoop] using hQ
    · simp at hc; omega
  | cons t rest ih =>
    intro a s ha0 ha hQ
    obtain ⟨tStart, tDone⟩ := t
    obtain ⟨c, msg, hc, hm, hstep, hlast⟩ := processOne_queued hq hh herr ha0 ha hmax hQ tStart tDone
    have hlen : ((List.length ((tStart, tDone) :: rest) : Nat) : Int) = rest.length + 1 := by
      simp
    have hunf : w.processLoop j.Typ ((tStart, tDone) :: rest) s
        = ((w.processLoop j.Typ rest (w.processOne s j.Typ tStart tDone).store).1,
           c :: (w.processLoop j.Typ rest (w.processOne s j.Typ tStart tDone).store).2) := by
      show ((w.processLoop j.Typ rest (w.processOne s j.Typ tStart tDone).store).1,
        (w.processOne s j.Typ tStart tDone).calls
          ++ (w.processLoop j.Typ rest (w.processOne s j.Typ tStart tDone).store).2) = _
      rw [hc]; rfl
    rw [hunf, hlen]
    by_cases hlt : a + 1 < j.MaxAttempts
    · obtain ⟨ih1, ih2⟩ := ih (a + 1) _ (by omega) hlt (hstep hlt)
      constructor
      · intro hb
        obtain ⟨l1, l2⟩ := ih1 (by omega)
        refine ⟨by simp [l1], ?_⟩
        have e : a + 1 + (rest.length : Int) = a + (rest.length + 1) := by ring
        rw [← e]; exact l2
      · intro hb
        obtain ⟨l1, c2, msg2, l2, l3, l4⟩ := ih2 (by omega)
        refine ⟨by simp only [List.length_cons]; push_cast; omega, c2, msg2, ?_, l3, l4⟩
        have hne : (w.processLoop j.Typ rest (w.processOne s j.Typ tStart tDone).store).2 ≠ [] := by
          intro hnil
          rw [hnil] at l1
          simp at l1
          omega
        show (c :: (w.processLoop j.Typ rest (w.processOne s j.Typ tStart tDone).store).2).getLast?
          = some c2
        rw [← l2]
        cases hl : (w.processLoop j.Typ rest (w.processOne s j.Typ tStart tDone).store).2 with
        | nil => exact absurd hl hne
        | cons x xs => simp [List.getLast?_cons_cons]
    · have he : a + 1 = j.MaxAttempts := by omega
      have hE := hlast he
      rw [processLoop_exhausted hq rest _ hE]
      constructor
      · intro hb; omega
      · intro _
        refine ⟨by simp; omega, c, msg, rfl, hm, hE⟩

/-- C4: a fresh job (pending, no attempts, `maxAttempts = n >= 1`, payload valid JSON as
`NewJob` builds it) whose handler fails on every invocation, enqueued alone in the index of
its type on a healthy server: the processing loop
invokes the handler once per iteration while fewer than `n` iterations have run, leaving the
job requeued each time (record `retrying`, ID back in the index), and exactly `n` times
however long it runs afterwards, leaving the record `failed` with `attempts = n`, the error
message of the last invocation, and no index entry. -/
theorem retry_exhaustion (q : Queue) (w : Worker) (h : Handler) (s0 : Store) (j : Job)
    (hq : w.queue = q) (hh : w.handlers j.Typ = some h) (herr : ∀ x, h x ≠ none)
    (hn : 1 ≤ j.MaxAttempts) (hmax : j.MaxAttempts < 2 ^ 63)
    (hst : j.Status = StatusPending) (hat : j.Attempts = 0) (hpay : j.validPayload)
    (hs0 : s0.faults = []) (hz0 : s0.zsets (q.queueKey j.Typ) = [])
    (hni : NotIndexed s0 j.ID) (clock : List (Int × Int)) :
    ((clock.length : Int) < j.MaxAttempts →
      (w.processLoop j.Typ clock (q.Enqueue s0 j).2).2.length = clock.length ∧
      ∃ r, (w.processLoop j.Typ clock (q.Enqueue s0 j).2).1.strings (q.jobKey j.ID)
          = some (Blob.json r) ∧
        r.Attempts = clock.length ∧ (0 < clock.length → r.Status = StatusRetrying) ∧
        (w.processLoop j.Typ clock (q.Enqueue s0 j).2).1.zsets (q.queueKey j.Typ)
          = [{ Score := score j, Member := j.ID }]) ∧
    (j.MaxAttempts ≤ clock.length →
      ((w.processLoop j.Typ clock (q.Enqueue s0 j).2).2.length : Int) = j.MaxAttempts ∧
      ∃ r c, (w.processLoop j.Typ clock (q.Enqueue s0 j).2).1.strings (q.jobKey j.ID)
          = some (Blob.json r) ∧
        r.Status = StatusFailed ∧ r.Attempts = j.MaxAttempts ∧
        (w.processLoop j.Typ clock (q.Enqueue s0 j).2).2.getLast? = some c ∧
        h c = some r.Error ∧
        NotIndexed (w.processLoop j.Typ clock (q.Enqueue s0 j).2).1 j.ID) := by
  have hQ : Queued q s0 j 0 (q.Enqueue s0 j).2 := by
    rw [Enqueue_healthy_valid q hs0 j hpay]
    have hf := written_fields j
    refine ⟨hs0, ?_, ?_, j.written, ?_, hf.1, hf.2.1, hf.2.2.1, hf.2.2.2.2.2.2.1,
      hf.2.2.2.2.2.1, hf.2.2.2.2.1.trans hat, fun _ => hf.2.2.2.1.trans hst,
      fun hc => absurd hc (lt_irrefl _), Canonical_written hpay⟩
    · simp [hz0, zrem]
    · intro k hk; simp [hk]
    · simp
  obtain ⟨p1, p2⟩ := processLoop_queued hq hh herr hmax clock 0 _ (le_refl _) (by omega) hQ
  constructor
  · intro hlt
    obtain ⟨l1, -, l2, -, r, l3, -, -, -, -, -, l4, -, l5, -⟩ := p1 (by omega)
    refine ⟨l1, r, l3, by omega, fun hpos => l5 (by omega), l2⟩
  · intro hge
    obtain ⟨l1, c, msg, l2, l3, -, l4, l5, r, l6, l7, l8, l9⟩ := p2 (by omega)
    refine ⟨by omega, r, c, l6, l7, l8, l2, by rw [l9]; exact l3, ?_⟩
    intro k e he
    by_cases hk : k = q.queueKey j.Typ
    · rw [hk, l4] at he
      simp at he
    · rw [l5 k hk] at he
      exact hni k e he

theorem retry_exhaustion_witness :
    ((alwaysFails.processLoop "email" fiveTicks
      (defaultQueue.Enqueue Store.empty earlyNormal).2).2.length : Int) = 3 :=
  ((retry_exhaustion defaultQueue alwaysFails (fun _ => some "smtp: connection refused")
    Store.empty earlyNormal rfl rfl (by intro x; simp) (by decide) (by decide) rfl rfl
    (Option.some_ne_none _) rfl rfl
    (by intro k e he; simp [Store.empty] at he) fiveTicks).2 (by decide)).1

/-! ## C6: every enqueued job is claimed exactly once -/

theorem dequeueN_empty (q : Queue) (jobType : String) {s : Store} (hf : s.faults = [])
    (hz : s.zsets (q.queueKey jobType) = []) (n : Nat) :
    dequeueN q jobType n s = (List.replicate n (none, none), s) := by
  induction n with
  | zero => rfl
  | succ n ih =>
    have hzm : zmax (s.zsets (q.queueKey jobType)) = none := by rw [hz]; rfl
    unfold dequeueN
    simp only [Dequeue_healthy_empty q hf jobType hzm, ih, List.replicate_succ]

theorem zrem_map_entry : ∀ (js : List Job) (j : Job), (js.map Job.ID).Nodup → j ∈ js →
    zrem (js.map entry) j.ID = (js.erase j).map entry := by
  intro js
  induction js with
  | nil => intro j _ hj; simp at hj
  | cons x xs ih =>
    intro j hn hj
    simp only [List.map_cons, List.nodup_cons] at hn
    obtain ⟨hx, hxs⟩ := hn
    by_cases hxj : x = j
    · subst hxj
      have hall : ∀ e ∈ xs.map entry, decide (e.Member ≠ x.ID) = true := by
        intro e he
        obtain ⟨y, hy, rfl⟩ := List.mem_map.mp he
        simp only [decide_eq_true_eq]
        intro hc
        exact hx (List.mem_map.mpr ⟨y, hy, hc⟩)
      simp only [zrem, List.map_cons, List.erase_cons_head]
      rw [List.filter_cons_of_neg (by simp [entry])]
      exact List.filter_eq_self.mpr hall
    · have hjx : j ∈ xs := by
        rcases List.mem_cons.mp hj with h | h
        · exact absurd h.symm hxj
        · exact h
      have hne : x.ID ≠ j.ID := by
        intro hc
        exact hx (List.mem_map.mpr ⟨j, hjx, hc.symm⟩)
      have hih := ih j hxs hjx
      simp only [zrem] at hih ⊢
      rw [List.map_cons, List.filter_cons_of_pos (by simp [entry, hne]), hih,
        List.erase_cons_tail (by simpa using hxj)]
      rfl

theorem Holds_nil_zsets {q : Queue} {jobType : String} {s : Store} (h : Holds q jobType s []) :
    s.zsets (q.queueKey jobType) = [] := by
  have := h.2.1
  simpa using this

theorem dequeueN_holds (q : Queue) (jobType : String) :
    ∀ (n : Nat) (js : List Job) (s : Store), Holds q jobType s js → js.length ≤ n →
      ∃ order : List Job, order.Perm js ∧
        (dequeueN q jobType n s).1
          = order.map (fun j => (some j.written, none))
            ++ List.replicate (n - js.length) (none, none) ∧
        (dequeueN q jobType n s).2.zsets (q.queueKey jobType) = [] := by
  intro n
  induction n with
  | zero =>
    intro js s hH hlen
    have hjs : js = [] := List.length_eq_zero.mp (by omega)
    subst hjs
    exact ⟨[], List.Perm.refl _, rfl, Holds_nil_zsets hH⟩
  | succ n ih =>
    intro js s hH hlen
    obtain ⟨hf, hperm, hnd, hrec⟩ := hH
    cases hz : zmax (s.zsets (q.queueKey jobType)) with
    | none =>
      have hz0 := zmax_eq_none hz
      have hjs : js = [] := by
        rw [hz0] at hperm
        have := hperm.length_eq
        simp at this
        exact List.length_eq_zero.mp this.symm
      subst hjs
      refine ⟨[], List.Perm.refl _, ?_, ?_⟩
      · rw [dequeueN_empty q jobType hf hz0]; simp
      · rw [dequeueN_empty q jobType hf hz0]; exact hz0
    | some m =>
      have hm : m ∈ js.map entry := hperm.subset (zmax_mem hz)
      obtain ⟨j, hj, hjm⟩ := List.mem_map.mp hm
      have hmem : m.Member = j.ID := by rw [← hjm]; rfl
      have hr : s.strings (q.jobKey m.Member) = some (Blob.json j.written) := by
        rw [hmem]; exact hrec j hj
      have hd := Dequeue_healthy_some q hf jobType hz hr
      have hH' : Holds q jobType (s.zdrop (q.queueKey jobType) m.Member) (js.erase j) := by
        refine ⟨hf, ?_, ?_, ?_⟩
        · simp only [zdrop_zsets, if_true]
          rw [hmem, ← zrem_map_entry js j hnd hj]
          exact List.Perm.filter _ hperm
        · exact List.Nodup.sublist (List.Sublist.map _ (List.erase_sublist j js)) hnd
        · intro x hx
          exact hrec x (List.mem_of_mem_erase hx)
      have hlen' : (js.erase j).length ≤ n := by
        rw [List.length_erase_of_mem hj]; omega
      have hpos : 0 < js.length := List.length_pos_of_mem hj
      obtain ⟨order, ho1, ho2, ho3⟩ := ih (js.erase j) _ hH' hlen'
      refine ⟨j :: order, ?_, ?_, ?_⟩
      · exact (List.Perm.cons j ho1).trans (List.perm_cons_erase hj).symm
      · unfold dequeueN
        simp only [hd, ho2, List.map_cons, List.cons_append]
        rw [List.length_erase_of_mem hj]
        congr 3
        omega
      · unfold dequeueN
        simp only [hd]
        exact ho3

theorem Enqueue_holds {q : Queue} {jobType : String} {s : Store} {js : List Job} {j : Job}
    (hH : Holds q jobType s js) (hty : j.Typ = jobType) (hid : j.ID ∉ js.map Job.ID)
    (hp : j.validPayload) :
    Holds q jobType (q.Enqueue s j).2 (j :: js) := by
  obtain ⟨hf, hperm, hnd, hrec⟩ := hH
  rw [Enqueue_healthy_valid q hf j hp]
  refine ⟨hf, ?_, ?_, ?_⟩
  · simp only [zput_zsets, put_zsets, hty, if_true, List.map_cons]
    have hall : ∀ e ∈ s.zsets (q.queueKey jobType), decide (e.Member ≠ j.ID) = true := by
      intro e he
      obtain ⟨y, hy, rfl⟩ := List.mem_map.mp (hperm.subset he)
      simp only [decide_eq_true_eq]
      intro hc
      exact hid (List.mem_map.mpr ⟨y, hy, hc⟩)
    have : zrem (s.zsets (q.queueKey jobType)) j.ID = s.zsets (q.queueKey jobType) :=
      List.filter_eq_self.mpr hall
    rw [this]
    exact List.Perm.cons _ hperm
  · simp only [List.map_cons, List.nodup_cons]
    exact ⟨hid, hnd⟩
  · intro x hx
    simp only [zput_strings, put_strings]
    rcases List.mem_cons.mp hx with h | h
    · subst h; simp
    · have hne : x.ID ≠ j.ID := by
        intro hc
        exact hid (List.mem_map.mpr ⟨x, h, hc⟩)
      have hk : q.jobKey x.ID ≠ q.jobKey j.ID := fun hc => hne (jobKey_inj q hc)
      rw [if_neg hk]
      exact hrec x h

theorem enqueueAll_holds (q : Queue) (jobType : String) :
    ∀ (js js0 : List Job) (s : Store), Holds q jobType s js0 → (∀ j ∈ js, j.Typ = jobType) →
      (∀ j ∈ js, j.validPayload) → ((js ++ js0).map Job.ID).Nodup →
      ∃ all : List Job, all.Perm (js ++ js0) ∧ Holds q jobType (enqueueAll q js s) all := by
  intro js
  induction js with
  | nil =>
    intro js0 s hH _ _ _
    exact ⟨js0, List.Perm.refl _, hH⟩
  | cons j js ih =>
    intro js0 s hH hty hpay hnd
    have hnd' : (j.ID :: (js ++ js0).map Job.ID).Nodup := by simpa using hnd
    have hj0 : j.ID ∉ js0.map Job.ID := by
      intro hc
      have := (List.nodup_cons.mp hnd').1
      apply this
      rw [List.map_append]
      exact List.mem_append_right _ hc
    have hH1 := Enqueue_holds hH (hty j (List.mem_cons_self _ _)) hj0
      (hpay j (List.mem_cons_self _ _))
    have hperm : (js ++ j :: js0).Perm (j :: (js ++ js0)) := List.perm_middle
    have hnd1 : ((js ++ j :: js0).map Job.ID).Nodup :=
      (List.Perm.nodup_iff (List.Perm.map _ hperm)).mpr (by simpa using hnd)
    obtain ⟨all, ha1, ha2⟩ := ih (j :: js0) _ hH1
      (fun x hx => hty x (List.mem_cons_of_mem _ hx))
      (fun x hx => hpay x (List.mem_cons_of_mem _ hx)) hnd1
    exact ⟨all, ha1.trans hperm, ha2⟩

/-- C6: with an atomic pop-max, after `Enqueue` of `k` jobs of one type with pairwise distinct
IDs and payloads that are valid JSON into an empty index on a healthy server, the first `k`
calls of `Dequeue` return these jobs, each exactly once (the results are a permutation of the
jobs, each as it reads back from its record: with the ID it was enqueued with, its payload
compacted, and identical to the enqueued job when the payload is in the form `NewJob`
builds), every later call returns no job and no error, and the index ends empty; and whenever `Dequeue` returns a job on a consistent server (healthy or not), no index
holds that job's ID afterwards. -/
theorem claim_exclusivity (q : Queue) (jobType : String) (jobs : List Job) (s0 : Store)
    (hs0 : s0.faults = []) (hz0 : s0.zsets (q.queueKey jobType) = [])
    (hty : ∀ j ∈ jobs, j.Typ = jobType) (hid : (jobs.map Job.ID).Nodup)
    (hpay : ∀ j ∈ jobs, j.validPayload) (extra : Nat) :
    (∃ order : List Job, order.Perm jobs ∧
      (dequeueN q jobType (jobs.length + extra) (enqueueAll q jobs s0)).1
        = order.map (fun j => (some j.written, none)) ++ List.replicate extra (none, none) ∧
      (∀ j ∈ order, j.written.ID = j.ID ∧ (Canonical j → j.written = j)) ∧
      (dequeueN q jobType (jobs.length + extra) (enqueueAll q jobs s0)).2.zsets
        (q.queueKey jobType) = []) ∧
    ∀ (s : Store) (j : Job), Consistent q s → (q.Dequeue s jobType).1.1 = some j →
      NotIndexed (q.Dequeue s jobType).2 j.ID := by
  constructor
  · have hH0 : Holds q jobType s0 [] := ⟨hs0, by rw [hz0]; exact List.Perm.refl _, by simp,
      by intro j hj; simp at hj⟩
    obtain ⟨all, ha1, ha2⟩ := enqueueAll_holds q jobType jobs [] s0 hH0 hty hpay
      (by simpa using hid)
    have hlen : all.length = jobs.length := by simpa using ha1.length_eq
    obtain ⟨order, ho1, ho2, ho3⟩ := dequeueN_holds q jobType (jobs.length + extra) all _ ha2
      (by omega)
    refine ⟨order, ho1.trans (by simpa using ha1), ?_,
      fun j _ => ⟨written_ID j, written_of_canonical⟩, ho3⟩
    rw [ho2, hlen]
    congr 2
    omega
  · intro s j hC hj
    exact ((Dequeue_step hC jobType).2.2.2 j hj).2.2.2.1

theorem claim_exclusivity_witness :
    ∃ order : List Job, order.Perm [firstIn, thirdIn] ∧
      (dequeueN defaultQueue "email" (2 + 1) (enqueueAll defaultQueue [firstIn, thirdIn]
        Store.empty)).1
        = order.map (fun j => (some j.written, none)) ++ List.replicate 1 (none, none) ∧
      (∀ j ∈ order, j.written.ID = j.ID ∧ (Canonical j → j.written = j)) ∧
      (dequeueN defaultQueue "email" (2 + 1) (enqueueAll defaultQueue [firstIn, thirdIn]
        Store.empty)).2.zsets (defaultQueue.queueKey "email") = [] :=
  (claim_exclusivity defaultQueue "email" [firstIn, thirdIn] Store.empty rfl rfl
    (by decide) (by decide)
    (by
      intro j hj
      simp only [List.mem_cons, List.mem_singleton, List.not_mem_nil, or_false] at hj
      rcases hj with rfl | rfl <;> exact Option.some_ne_none _) 1).1

/-! ## C5: attempts against maxAttempts -/

/-- C5 fails at a concrete input: a job built by `NewJob` and `WithMaxAttempts(0)` is
executed once, and both the in-memory job and the stored record then have `attempts = 1`
above `maxAttempts = 0`. -/
theorem attempts_exceed_zero_limit :
    NewJob "job-b" 1700000000000000000 "email" (.ok "null") = .ok earlyNormal ∧
    (∃ x ∈ (alwaysSucceeds.processOne
        (defaultQueue.Enqueue Store.empty (earlyNormal.WithMaxAttempts 0)).2 "email"
        1700000001000000000 1700000001500000000).mem, x.MaxAttempts < x.Attempts) ∧
    ∃ r, (alwaysSucceeds.processOne
        (defaultQueue.Enqueue Store.empty (earlyNormal.WithMaxAttempts 0)).2 "email"
        1700000001000000000 1700000001500000000).store.strings (defaultQueue.jobKey "job-b")
        = some (Blob.json r) ∧ r.Attempts = 1 ∧ r.MaxAttempts = 0 := by
  refine ⟨rfl, by decide, _, rfl, by decide, by decide⟩

/-- C5 as amended: for a job built by `NewJob`, `WithMaxAttempts(n)` with `1 <= n` (a Go
`int`) and `WithPriority`, enqueued on a consistent server and driven through any sequence of
worker steps, with or without failing store commands, `attempts <= maxAttempts` holds for
every stored record, for every in-memory state of a job during a step and for everything a
step persists; a step invokes the handler at most once, with `attempts` one above the
dequeued value, and `attempts` does not change again during the step. -/
theorem attempts_within_limit (q : Queue) (uuid jobType bytes : String) (now n p : Int)
    (j0 : Job) (s0 s : Store) (hj : NewJob uuid now jobType (.ok bytes) = .ok j0)
    (hn : 1 ≤ n) (hmax : n < 2 ^ 63) (h0 : Consistent q s0) (hfresh : NotIndexed s0 uuid)
    (hreach : Reach q (q.Enqueue s0 ((j0.WithMaxAttempts n).WithPriority p)).2 s) :
    (∀ key r, s.strings key = some (Blob.json r) → r.Attempts ≤ r.MaxAttempts) ∧
    ∀ (w : Worker) (t : String) (tStart tDone : Int), w.queue = q →
      (∀ x ∈ (w.processOne s t tStart tDone).mem, x.Attempts ≤ x.MaxAttempts) ∧
      (∀ key x, (key, Blob.json x) ∈ (w.processOne s t tStart tDone).store.journal →
        (key, Blob.json x) ∈ s.journal ∨ x ∈ (w.processOne s t tStart tDone).mem) ∧
      (w.processOne s t tStart tDone).calls.length ≤ 1 ∧
      ∀ c ∈ (w.processOne s t tStart tDone).calls, ∃ j rest,
        (w.processOne s t tStart tDone).mem = j :: c :: rest ∧
        c.Attempts = j.Attempts + 1 ∧ ∀ x ∈ rest, x.Attempts = c.Attempts := by
  obtain ⟨e1, e2, e3, e4⟩ := NewJob_ok hj
  have hW : Waiting ((j0.WithMaxAttempts n).WithPriority p) := by
    refine ⟨?_, ?_, hmax, e4, Or.inl e2⟩
    · show 0 ≤ j0.Attempts
      omega
    · show j0.Attempts < n
      omega
  have hI1 := Enqueue_consistent h0 (by show NotIndexed s0 j0.ID; rw [e1]; exact hfresh) hW
  have hI : Consistent q s := Reach_consistent hI1 hreach
  refine ⟨fun key r hr => (hI.records key r hr).2.2.1, ?_⟩
  intro w t tStart tDone hq
  exact step_attempts hI w hq t tStart tDone

theorem attempts_within_limit_witness :
    (alwaysFails.processOne
      (defaultQueue.Enqueue Store.empty ((earlyNormal.WithMaxAttempts 1).WithPriority 5)).2
      "email" 1700000001000000000 1700000001500000000).calls.length ≤ 1 ∧
    ((earlyNormal.WithMaxAttempts 1).WithPriority 5).Attempts
      ≤ ((earlyNormal.WithMaxAttempts 1).WithPriority 5).MaxAttempts :=
  ⟨((attempts_within_limit defaultQueue "job-b" "email" "null" 1700000000000000000 1 5
      earlyNormal Store.empty _ rfl (by decide) (by decide) (Consistent_empty defaultQueue)
      (by intro k e he; simp [Store.empty] at he) (Reach.refl _)).2
      alwaysFails "email" 1700000001000000000 1700000001500000000 rfl).2.2.1,
    (attempts_within_limit defaultQueue "job-b" "email" "null" 1700000000000000000 1 5
      earlyNormal Store.empty _ rfl (by decide) (by decide) (Consistent_empty defaultQueue)
      (by intro k e he; simp [Store.empty] at he) (Reach.refl _)).1
      (defaultQueue.jobKey "job-b") ((earlyNormal.WithMaxAttempts 1).WithPriority 5)
      (by decide)⟩

/-! ## C8: Requeue -/

/-- C8: `Requeue` changes nothing of the in-memory job but its status (now `retrying`); it
writes no record but the job's own, and what it writes there is the encoding of the job with
that status (payload compacted by the encoder, everything else as in memory); it adds no
index entry but one for the job, whose score is computed from priority and `createdAt` only.
When it succeeds the record under the job's key is overwritten and the index of the job's
type holds exactly one entry for the job, equal to the entry `Enqueue` inserted for any
earlier state of the job with that priority and `createdAt`.  It succeeds on a healthy server
for every job whose payload is valid JSON, in particular for every job with the payload of a
job that `Enqueue` accepted before; for a payload that is not valid JSON it returns the
`marshal job` error and sends nothing to the server.  When the worker requeues a failed job
that `Dequeue` handed out, the entry does not depend on the clock. -/
theorem requeue_keeps_position (q : Queue) (s : Store) (j : Job) :
    (q.Requeue s j).1.2 = { j with Status := StatusRetrying } ∧
    (∃ j1, (q.Requeue s j).1.2 = j1 ∧ j1.Status = StatusRetrying ∧ j1.ID = j.ID ∧
      j1.Typ = j.Typ ∧ j1.Payload = j.Payload ∧ j1.Priority = j.Priority ∧
      j1.Attempts = j.Attempts ∧ j1.MaxAttempts = j.MaxAttempts ∧
      j1.CreatedAt = j.CreatedAt ∧ j1.StartedAt = j.StartedAt ∧
      j1.CompletedAt = j.CompletedAt ∧ j1.Error = j.Error) ∧
    (∃ r, ({ j with Status := StatusRetrying } : Job).written = r ∧ r.Status = StatusRetrying ∧
      r.ID = j.ID ∧ r.Typ = j.Typ ∧ r.Payload.compact = j.Payload.compact ∧
      r.Priority = j.Priority ∧ r.Attempts = j.Attempts ∧ r.MaxAttempts = j.MaxAttempts ∧
      r.CreatedAt = j.CreatedAt ∧ r.StartedAt = j.StartedAt ∧
      r.CompletedAt = j.CompletedAt ∧ r.Error = j.Error ∧
      (Canonical j → r = { j with Status := StatusRetrying })) ∧
    (∀ key, (q.Requeue s j).2.strings key = s.strings key ∨
      (key = q.jobKey j.ID ∧
        (q.Requeue s j).2.strings key
          = some (Blob.json ({ j with Status := StatusRetrying } : Job).written))) ∧
    (∀ k e, e ∈ (q.Requeue s j).2.zsets k → e ∈ s.zsets k ∨
      (k = q.queueKey j.Typ ∧ e = { Score := score j, Member := j.ID })) ∧
    ((q.Requeue s j).1.1 = none →
      j.validPayload ∧
      (q.Requeue s j).2.strings (q.jobKey j.ID)
        = some (Blob.json ({ j with Status := StatusRetrying } : Job).written) ∧
      (q.Requeue s j).2.zsets (q.queueKey j.Typ)
        = { Score := score j, Member := j.ID } :: zrem (s.zsets (q.queueKey j.Typ)) j.ID) ∧
    (s.faults = [] → j.validPayload → (q.Requeue s j).1.1 = none) ∧
    (∀ (s0 : Store) (j0 : Job), (q.Enqueue s0 j0).1 = none → j0.Payload = j.Payload →
      s.faults = [] → (q.Requeue s j).1.1 = none) ∧
    (j.Payload.compact = none →
      q.Requeue s j
        = ((some "marshal job: json: error calling MarshalJSON for type json.RawMessage",
            { j with Status := StatusRetrying }), s)) ∧
    (∀ (s0 : Store) (j0 : Job), (q.Enqueue s0 j0).1 = none → (q.Requeue s j).1.1 = none →
      j0.ID = j.ID → j0.Typ = j.Typ → j0.Priority = j.Priority → j0.CreatedAt = j.CreatedAt →
      ((q.Enqueue s0 j0).2.zsets (q.queueKey j.Typ)).head?
        = ((q.Requeue s j).2.zsets (q.queueKey j.Typ)).head?) ∧
    (∀ (w : Worker) (h : Handler) (tStart tDone : Int), w.queue = q → s.faults = [] →
      Waiting j → Canonical j → j.Attempts + 1 < j.MaxAttempts →
      h (j.MarkStarted tStart) ≠ none →
      (w.executeJob s j h tStart tDone).store.zsets (q.queueKey j.Typ)
        = { Score := score j, Member := j.ID } :: zrem (s.zsets (q.queueKey j.Typ)) j.ID) := by
  have hreq : q.Requeue s j
      = (((q.Enqueue s { j with Status := StatusRetrying }).1, { j with Status := StatusRetrying }),
          (q.Enqueue s { j with Status := StatusRetrying }).2) := rfl
  have hout := Enqueue_outcomes q s { j with Status := StatusRetrying }
  have hsucc : (q.Requeue s j).1.1 = none →
      j.validPayload ∧
      q.Requeue s j = ((none, { j with Status := StatusRetrying }),
        (s.tick.put (q.jobKey j.ID)
          (Blob.json ({ j with Status := StatusRetrying } : Job).written)).tick.zput
          (q.queueKey j.Typ) { Score := score j, Member := j.ID }) := by
    intro hn
    rw [hreq] at hn ⊢
    rcases hout with ⟨_, h⟩ | ⟨hv, ⟨msg, h⟩ | ⟨msg, h⟩ | h⟩
    · rw [h] at hn; cases hn
    · rw [h] at hn; cases hn
    · rw [h] at hn; cases hn
    · rw [h]; exact ⟨hv, rfl⟩
  have hf := written_fields { j with Status := StatusRetrying }
  refine ⟨rfl, ⟨_, rfl, rfl, rfl, rfl, rfl, rfl, rfl, rfl, rfl, rfl, rfl, rfl⟩,
    ⟨_, rfl, hf.2.2.2.1, hf.1, hf.2.1, hf.2.2.2.2.2.2.2.2.2.2, hf.2.2.1, hf.2.2.2.2.1,
      hf.2.2.2.2.2.1, hf.2.2.2.2.2.2.1, hf.2.2.2.2.2.2.2.1, hf.2.2.2.2.2.2.2.2.1,
      hf.2.2.2.2.2.2.2.2.2.1, fun hc => written_of_canonical hc⟩,
    ?_, ?_, ?_, ?_, ?_, ?_, ?_, ?_⟩
  · intro key
    rw [hreq]
    rcases hout with ⟨_, h⟩ | ⟨_, ⟨msg, h⟩ | ⟨msg, h⟩ | h⟩ <;> rw [h]
    · left; rfl
    · left; simp
    · by_cases hk : key = q.jobKey j.ID
      · right; exact ⟨hk, by simp [hk]⟩
      · left; simp [hk]
    · by_cases hk : key = q.jobKey j.ID
      · right; exact ⟨hk, by simp [hk]⟩
      · left; simp [hk]
  · intro k e he
    rw [hreq] at he
    rcases hout with ⟨_, h⟩ | ⟨_, ⟨msg, h⟩ | ⟨msg, h⟩ | h⟩ <;> rw [h] at he
    · left; exact he
    · left; simpa using he
    · left; simpa using he
    · simp only [zput_zsets, tick_zsets, put_zsets] at he
      by_cases hk : k = q.queueKey j.Typ
      · rw [if_pos hk] at he
        rcases List.mem_cons.mp he with rfl | he
        · right; exact ⟨hk, rfl⟩
        · left; rw [hk]; exact (mem_zrem.mp he).1
      · rw [if_neg hk] at he
        left; exact he
  · intro hn
    obtain ⟨hv, hx⟩ := hsucc hn
    rw [hx]
    exact ⟨hv, by simp, by simp⟩
  · intro hf0 hv
    rw [hreq, Enqueue_healthy_valid q hf0 { j with Status := StatusRetrying } hv]
  · intro s0 j0 h0 hpay hf0
    have hv0 : j0.validPayload := by
      rcases Enqueue_outcomes q s0 j0 with ⟨_, h⟩ | ⟨hv, _⟩
      · rw [h] at h0; cases h0
      · exact hv
    have hv : j.validPayload := by
      unfold Job.validPayload at hv0 ⊢
      rw [← hpay]; exact hv0
    rw [hreq, Enqueue_healthy_valid q hf0 { j with Status := StatusRetrying } hv]
  · intro hc
    rw [hreq]
    rcases hout with ⟨_, h⟩ | ⟨hv, _⟩
    · rw [h]; rfl
    · exact absurd hc hv
  · intro s0 j0 h0 hn hid hty hpr hct
    rw [(hsucc hn).2]
    rcases Enqueue_outcomes q s0 j0 with ⟨_, h⟩ | ⟨_, ⟨msg, h⟩ | ⟨msg, h⟩ | h⟩
    · rw [h] at h0; cases h0
    · rw [h] at h0; cases h0
    · rw [h] at h0; cases h0
    · rw [h]
      simp [hty, hid, score_congr hpr hct]
  · intro w h tStart tDone hq hs hw hp hlt hne
    rcases executeJob_cases w hs hw hp h tStart tDone with
      ⟨hnone, -⟩ | ⟨msg, -, ⟨-, hx⟩ | ⟨hl, -⟩⟩
    · exact absurd hnone hne
    · rw [hx, hq]
      simp [entry]
    · omega

theorem requeue_keeps_position_witness :
    (defaultQueue.Requeue Store.empty earlyNormal).1.2
      = { earlyNormal with Status := StatusRetrying } ∧
    (defaultQueue.Enqueue Store.empty earlyNormal).1 = none ∧
    (defaultQueue.Requeue Store.empty (earlyNormal.MarkStarted 1700000001000000000)).1.1 = none ∧
    (defaultQueue.Requeue Store.empty notJsonJob).1.1
      = some "marshal job: json: error calling MarshalJSON for type json.RawMessage" ∧
    (defaultQueue.Requeue Store.empty notJsonJob).2.journal = [] :=
  ⟨(requeue_keeps_position defaultQueue Store.empty earlyNormal).1,
    rfl,
    (requeue_keeps_position defaultQueue Store.empty
      (earlyNormal.MarkStarted 1700000001000000000)).2.2.2.2.2.2.2.1
      Store.empty earlyNormal rfl rfl rfl,
    congrArg (fun r => r.1.1)
      ((requeue_keeps_position defaultQueue Store.empty notJsonJob).2.2.2.2.2.2.2.2.1 rfl),
    congrArg (fun r => r.2.journal)
      ((requeue_keeps_position defaultQueue Store.empty notJsonJob).2.2.2.2.2.2.2.2.1 rfl)⟩

/-! ## C9: status transitions -/

/-- C9 fails at a concrete input: a job with `maxAttempts = 3` whose handler fails once goes
`pending, running, failed, retrying` in memory and in the stored record, so `failed` is
written although retries remain and the `failed` record changes status afterwards; the next
step takes it from `retrying` straight to `running`.  Neither `failed -> retrying` nor
`retrying -> running` is an edge of the state machine of section 4.4. -/
theorem failed_written_before_retrying :
    (alwaysFails.processOne (defaultQueue.Enqueue Store.empty earlyNormal).2 "email"
      1700000001000000000 1700000001500000000).mem.map Job.Status
      = [StatusPending, StatusRunning, StatusFailed, StatusRetrying] ∧
    persistedStatuses (alwaysFails.processOne (defaultQueue.Enqueue Store.empty earlyNormal).2
      "email" 1700000001000000000 1700000001500000000).store (defaultQueue.jobKey "job-b")
      = [StatusPending, StatusRunning, StatusFailed, StatusRetrying] ∧
    (∃ x ∈ (alwaysFails.processOne (defaultQueue.Enqueue Store.empty earlyNormal).2 "email"
      1700000001000000000 1700000001500000000).mem,
      x.Status = StatusFailed ∧ x.ShouldRetry = true) ∧
    ((alwaysFails.processOne
      (alwaysFails.processOne (defaultQueue.Enqueue Store.empty earlyNormal).2 "email"
        1700000001000000000 1700000001500000000).store "email"
      1700000002000000000 1700000002500000000).mem.map Job.Status).take 2
      = [StatusRetrying, StatusRunning] ∧
    ¬ SpecEdge StatusFailed StatusRetrying ∧ ¬ SpecEdge StatusRetrying StatusRunning := by
  refine ⟨by decide, by decide, by decide, by decide, ?_, ?_⟩ <;> intro h <;> cases h

/-- C9 as amended: on a consistent server, with or without failing store commands, every
status change a worker step makes to the in-memory job is one of `pending -> running`,
`retrying -> running`, `running -> completed`, `running -> failed` and `failed -> retrying`,
and which of them are made is decided by the handler: the job claimed is the one `Dequeue`
returns; without a registered handler it is left as it is; otherwise the handler is invoked
once, on the started job, and the in-memory states are: started and completed when the
handler returns no error; started, failed (with the handler's message) and retrying when the
handler returns an error and `ShouldRetry` holds of the failed job; started and failed, the
handler's error being returned, when the handler returns an error and `ShouldRetry` does not
hold.  The step starts from the stored record, writes only these in-memory states to it,
and under normal operation persists all of them in this order, the last one being both the
job left in memory and the record; a job is left `failed` in memory by a step only with its
attempts used up; a stored record that is `completed` or `failed` between steps never
changes again; and the server stays consistent over any number of steps. -/
theorem status_changes_follow_code (q : Queue) (s : Store) (w : Worker) (jobType : String)
    (tStart tDone : Int) (hC : Consistent q s) (hq : w.queue = q) :
    List.Chain' CodeEdge ((w.processOne s jobType tStart tDone).mem.map Job.Status) ∧
    (w.processOne s jobType tStart tDone).mem.head? = (q.Dequeue s jobType).1.1 ∧
    (∀ j, (w.processOne s jobType tStart tDone).mem.head? = some j →
      (w.handlers jobType = none →
        (w.processOne s jobType tStart tDone).mem = [j] ∧
        (w.processOne s jobType tStart tDone).calls = []) ∧
      ∀ h, w.handlers jobType = some h →
        (w.processOne s jobType tStart tDone).calls = [j.MarkStarted tStart] ∧
        (h (j.MarkStarted tStart) = none →
          (w.processOne s jobType tStart tDone).mem
            = [j, j.MarkStarted tStart, (j.MarkStarted tStart).MarkCompleted tDone] ∧
          (w.processOne s jobType tStart tDone).mem.map Job.Status
            = [j.Status, StatusRunning, StatusCompleted] ∧
          (w.processOne s jobType tStart tDone).err = none) ∧
        ∀ msg, h (j.MarkStarted tStart) = some msg →
          (((j.MarkStarted tStart).MarkFailed msg).ShouldRetry = true →
            (w.processOne s jobType tStart tDone).mem
              = [j, j.MarkStarted tStart, (j.MarkStarted tStart).MarkFailed msg,
                  { (j.MarkStarted tStart).MarkFailed msg with Status := StatusRetrying }] ∧
            (w.processOne s jobType tStart tDone).mem.map Job.Status
              = [j.Status, StatusRunning, StatusFailed, StatusRetrying] ∧
            (w.processOne s jobType tStart tDone).mem.map Job.Error
              = [j.Error, j.Error, msg, msg]) ∧
          (((j.MarkStarted tStart).MarkFailed msg).ShouldRetry = false →
            (w.processOne s jobType tStart tDone).mem
              = [j, j.MarkStarted tStart, (j.MarkStarted tStart).MarkFailed msg] ∧
            (w.processOne s jobType tStart tDone).mem.map Job.Status
              = [j.Status, StatusRunning, StatusFailed] ∧
            (w.processOne s jobType tStart tDone).mem.map Job.Error = [j.Error, j.Error, msg] ∧
            (w.processOne s jobType tStart tDone).err = some msg)) ∧
    (∀ key x, (key, Blob.json x) ∈ (w.processOne s jobType tStart tDone).store.journal →
      (key, Blob.json x) ∈ s.journal ∨ x ∈ (w.processOne s jobType tStart tDone).mem) ∧
    (s.faults = [] →
      (w.processOne s jobType tStart tDone).store.journal
        = ((w.processOne s jobType tStart tDone).mem.tail.reverse.map
            fun x => (q.jobKey x.ID, Blob.json x)) ++ s.journal ∧
      ∀ x, (w.processOne s jobType tStart tDone).job = some x →
        (w.processOne s jobType tStart tDone).store.strings (q.jobKey x.ID)
          = some (Blob.json x)) ∧
    (∀ j, (w.processOne s jobType tStart tDone).mem.head? = some j →
      s.strings (q.jobKey j.ID) = some (Blob.json j)) ∧
    (∀ x, (w.processOne s jobType tStart tDone).job = some x → x.Status = StatusFailed →
      x.MaxAttempts ≤ x.Attempts) ∧
    (∀ (key : String) (x : Job) (u : Store), s.strings key = some (Blob.json x) →
      x.Status = StatusCompleted ∨ x.Status = StatusFailed → Reach q s u →
      u.strings key = some (Blob.json x)) ∧
    (∀ u : Store, Reach q s u → Consistent q u) := by
  refine ⟨?_, ?_, ?_, ?_, ?_, ?_, ?_, ?_, fun u hu => Reach_consistent hC hu⟩
  · rcases (processOne_trace hC w hq jobType tStart tDone).2 with
      ⟨hm, -⟩ | ⟨j, hw, -, -, hsh⟩
    · rw [hm]; simp
    · have hstart : CodeEdge j.Status StatusRunning := by
        rcases hw.2.2.2.2 with h1 | h1 <;> rw [h1]
        · exact CodeEdge.start_pending
        · exact CodeEdge.start_retrying
      rcases hsh with ⟨hm, -⟩ | ⟨-, hm, -⟩ | ⟨msg, -, -, hm, -⟩ | ⟨msg, -, -, hm, -⟩
      · rw [hm]; simp
      · rw [hm]
        simp only [List.map_cons, List.map_nil, List.chain'_cons, List.chain'_singleton, and_true]
        exact ⟨hstart, CodeEdge.complete⟩
      · rw [hm]
        simp only [List.map_cons, List.map_nil, List.chain'_cons, List.chain'_singleton, and_true]
        exact ⟨hstart, CodeEdge.fail, CodeEdge.retry⟩
      · rw [hm]
        simp only [List.map_cons, List.map_nil, List.chain'_cons, List.chain'_singleton, and_true]
        exact ⟨hstart, CodeEdge.fail⟩
  · obtain ⟨-, -, -, hd⟩ := Dequeue_step hC jobType
    unfold Worker.processOne
    rw [hq]
    rcases hr : q.Dequeue s jobType with ⟨⟨oj, oe⟩, s1⟩
    rw [hr] at hd
    cases oj with
    | none =>
      cases oe with
      | none => rfl
      | some e => rfl
    | some j0 =>
      have he := (hd j0 rfl).1
      simp only at he
      subst he
      simp only []
      cases hh : w.handlers jobType with
      | none => rfl
      | some h0 => exact (executeJob_course w s1 j0 h0 tStart tDone).2.1
  · intro j hj
    obtain ⟨c0, c1⟩ := processOne_course w s jobType tStart tDone j hj
    refine ⟨c0, ?_⟩
    intro h hh
    obtain ⟨d1, d2, d3⟩ := c1 h hh
    refine ⟨d1, ?_, ?_⟩
    · intro hn
      obtain ⟨e1, -, e3⟩ := d2 hn
      exact ⟨e1, by rw [e1]; rfl, e3⟩
    · intro msg hm
      obtain ⟨f1, f2⟩ := d3 msg hm
      refine ⟨?_, ?_⟩
      · intro hsr
        obtain ⟨e1, -⟩ := f1 hsr
        exact ⟨e1, by rw [e1]; rfl, by rw [e1]; rfl⟩
      · intro hsr
        obtain ⟨e1, -, e3⟩ := f2 hsr
        exact ⟨e1, by rw [e1]; rfl, by rw [e1]; rfl, e3⟩
  · exact (step_attempts hC w hq jobType tStart tDone).2.1
  · intro hf
    have hI : Inv q s := { toConsistent := hC, healthy := hf }
    rcases processOne_cases hI w hq jobType tStart tDone with
      ⟨-, he⟩ | ⟨j, hw, hr, -, -, hI1, -, ⟨-, he⟩ | ⟨h, -, he⟩⟩
    · rw [he]; simp
    · rw [he]
      refine ⟨by simp, ?_⟩
      intro x hx
      simp only [Option.some.injEq] at hx
      subst hx
      simpa using hr
    · rcases executeJob_cases w hI1.healthy hw (hC.canon _ _ hr) h tStart tDone with
        ⟨-, hx'⟩ | ⟨msg, -, ⟨-, hx'⟩ | ⟨-, hx'⟩⟩
      · rw [he, hx', hq]
        refine ⟨by simp [Job.MarkStarted, Job.MarkCompleted], ?_⟩
        intro x hx
        simp only [Option.some.injEq] at hx
        subst hx
        simp [Job.MarkStarted, Job.MarkCompleted]
      · rw [he, hx', hq]
        refine ⟨by simp [Job.MarkStarted, Job.MarkFailed], ?_⟩
        intro x hx
        simp only [Option.some.injEq] at hx
        subst hx
        simp [Job.MarkStarted, Job.MarkFailed]
      · rw [he, hx', hq]
        refine ⟨by simp [Job.MarkStarted, Job.MarkFailed], ?_⟩
        intro x hx
        simp only [Option.some.injEq] at hx
        subst hx
        simp [Job.MarkStarted, Job.MarkFailed]
  · intro j hj
    rcases (processOne_trace hC w hq jobType tStart tDone).2 with
      ⟨hm, -⟩ | ⟨j', -, hrec, -, hsh⟩
    · rw [hm] at hj; simp at hj
    · rcases hsh with ⟨hm, -⟩ | ⟨-, hm, -⟩ | ⟨msg, -, -, hm, -⟩ | ⟨msg, -, -, hm, -⟩ <;>
      · rw [hm] at hj; simp at hj; subst hj; exact hrec
  · intro x hx hst
    rcases (processOne_trace hC w hq jobType tStart tDone).2 with
      ⟨-, -, hj, -⟩ | ⟨j, hw, -, -, hsh⟩
    · rw [hj] at hx; cases hx
    · have hatt := MarkStarted_attempts hw tStart
      rcases hsh with ⟨-, -, hj⟩ | ⟨-, -, hj⟩ | ⟨msg, -, -, -, hj⟩ | ⟨msg, hl, -, -, hj, -⟩
      · rw [hj] at hx
        cases hx
        rcases hw.2.2.2.2 with h1 | h1 <;> rw [h1] at hst <;> cases hst
      · rw [hj] at hx; cases hx; cases hst
      · rw [hj] at hx; cases hx; cases hst
      · rw [hj] at hx
        cases hx
        show j.MaxAttempts ≤ (j.MarkStarted tStart).Attempts
        rw [hatt]; omega
  · intro key x u hx hst hreach
    refine reach_frame hC hreach hx ?_
    intro hw
    rcases hw.2.2.2.2 with h1 | h1 <;> rcases hst with h2 | h2 <;> rw [h1] at h2 <;> cases h2

theorem status_changes_follow_code_witness :
    List.Chain' CodeEdge
      ((alwaysFails.processOne (defaultQueue.Enqueue Store.empty earlyNormal).2 "email"
        1700000001000000000 1700000001500000000).mem.map Job.Status) ∧
    (alwaysFails.processOne (defaultQueue.Enqueue Store.empty earlyNormal).2 "email"
      1700000001000000000 1700000001500000000).mem.map Job.Status
      = [StatusPending, StatusRunning, StatusFailed, StatusRetrying] ∧
    (alwaysSucceeds.processOne (defaultQueue.Enqueue Store.empty earlyNormal).2 "email"
      1700000001000000000 1700000001500000000).mem.map Job.Status
      = [StatusPending, StatusRunning, StatusCompleted] :=
  ⟨(status_changes_follow_code defaultQueue (defaultQueue.Enqueue Store.empty earlyNormal).2
      alwaysFails "email" 1700000001000000000 1700000001500000000
      (Enqueue_consistent (Consistent_empty defaultQueue)
        (by intro k e he; simp [Store.empty] at he)
        ⟨by decide, by decide, by decide, rfl, Or.inl rfl⟩) rfl).1,
    ((((((status_changes_follow_code defaultQueue (defaultQueue.Enqueue Store.empty earlyNormal).2
      alwaysFails "email" 1700000001000000000 1700000001500000000
      (Enqueue_consistent (Consistent_empty defaultQueue)
        (by intro k e he; simp [Store.empty] at he)
        ⟨by decide, by decide, by decide, rfl, Or.inl rfl⟩) rfl).2.2.1
      earlyNormal (by decide)).2 (fun _ => some "smtp: connection refused") rfl).2.2
      "smtp: connection refused" rfl).1 (by decide)).2.1),
    (((((status_changes_follow_code defaultQueue (defaultQueue.Enqueue Store.empty earlyNormal).2
      alwaysSucceeds "email" 1700000001000000000 1700000001500000000
      (Enqueue_consistent (Consistent_empty defaultQueue)
        (by intro k e he; simp [Store.empty] at he)
        ⟨by decide, by decide, by decide, rfl, Or.inl rfl⟩) rfl).2.2.1
      earlyNormal (by decide)).2 (fun _ => none) rfl).2.1 rfl).2.1)⟩

/-! ## C10: timestamps -/

/-- C10 fails at a concrete input: `MarkStarted` on a job whose `startedAt` is already set
replaces it, and the stored record of a retried job carries the start time of the second
execution after carrying that of the first. -/
theorem startedAt_reassigned_on_retry :
    (earlyNormal.MarkStarted 1700000001000000000).StartedAt = some 1700000001000000000 ∧
    ((earlyNormal.MarkStarted 1700000001000000000).MarkStarted 1700000002000000000).StartedAt
      ≠ (earlyNormal.MarkStarted 1700000001000000000).StartedAt ∧
    (recordOf defaultQueue
      (alwaysFails.processOne (defaultQueue.Enqueue Store.empty earlyNormal).2 "email"
        1700000001000000000 1700000001500000000).store "job-b").map Job.StartedAt
      = some (some 1700000001000000000) ∧
    (recordOf defaultQueue
      (alwaysFails.processOne
        (alwaysFails.processOne (defaultQueue.Enqueue Store.empty earlyNormal).2 "email"
          1700000001000000000 1700000001500000000).store "email"
        1700000002000000000 1700000002500000000).store "job-b").map Job.StartedAt
      = some (some 1700000002000000000) := by
  decide

/-- C10 as amended: on a consistent server and over any number of worker steps, with or
without failing store commands, a stored job keeps its `createdAt`, and all in-memory states
of a job during a step share it; `startedAt` is assigned once per execution (every
`MarkStarted` sets it to the current time, also when it was set before, and it stays so for
the rest of the step); `completedAt` is assigned at most once: a step sets it only on a job
that had none, and a stored job that has one is never written again.  Every step leaves the
server consistent, so this holds step after step. -/
theorem timestamps_over_lifecycle (q : Queue) (s : Store) (hC : Consistent q s) :
    (∀ (key : String) (x : Job) (u : Store), s.strings key = some (Blob.json x) → Reach q s u →
      ∃ y, u.strings key = some (Blob.json y) ∧ y.CreatedAt = x.CreatedAt) ∧
    (∀ (j : Job) (now : Int), (j.MarkStarted now).StartedAt = some now ∧
      (j.MarkStarted now).CreatedAt = j.CreatedAt ∧
      (j.MarkStarted now).CompletedAt = j.CompletedAt) ∧
    (∀ (key : String) (x : Job) (u : Store), s.strings key = some (Blob.json x) →
      x.CompletedAt ≠ none → Reach q s u → u.strings key = some (Blob.json x)) ∧
    ∀ (w : Worker) (jobType : String) (tStart tDone : Int), w.queue = q →
      (∀ x ∈ (w.processOne s jobType tStart tDone).mem,
        ∀ y ∈ (w.processOne s jobType tStart tDone).mem, y.CreatedAt = x.CreatedAt) ∧
      (∀ c ∈ (w.processOne s jobType tStart tDone).calls, ∃ j rest,
        (w.processOne s jobType tStart tDone).mem = j :: c :: rest ∧
        c.StartedAt = some tStart ∧ ∀ x ∈ rest, x.StartedAt = some tStart) ∧
      (∀ x ∈ (w.processOne s jobType tStart tDone).mem, x.CompletedAt ≠ none →
        x.CompletedAt = some tDone ∧ (w.processOne s jobType tStart tDone).job = some x ∧
        ∃ j, (w.processOne s jobType tStart tDone).mem.head? = some j ∧
          j.CompletedAt = none) ∧
      Consistent q (w.processOne s jobType tStart tDone).store := by
  refine ⟨?_, ?_, ?_, ?_⟩
  · intro key x u hx hreach
    exact reach_createdAt hC hreach hx
  · intro j now
    exact ⟨rfl, rfl, rfl⟩
  · intro key x u hx hc hreach
    refine reach_frame hC hreach hx ?_
    intro hw
    exact hc hw.2.2.2.1
  · intro w jobType tStart tDone hq
    obtain ⟨hC1, hcase⟩ := processOne_trace hC w hq jobType tStart tDone
    refine ⟨?_, ?_, ?_, hC1⟩
    · intro x hx y hy
      exact (step_mem_same hC w hq jobType tStart tDone x hx y hy).2.2.2.2.2
    · rcases hcase with ⟨-, hc, -⟩ | ⟨j, hw, -, -, hsh⟩
      · rw [hc]; simp
      · rcases hsh with ⟨-, hc, -⟩ | ⟨hc, hm, -⟩ | ⟨msg, -, hc, hm, -⟩ | ⟨msg, -, hc, hm, -⟩
        · rw [hc]; simp
        · rw [hc, hm]
          intro c hc'
          simp only [List.mem_singleton] at hc'
          subst hc'
          refine ⟨j, _, rfl, rfl, ?_⟩
          intro x hx
          simp only [List.mem_singleton] at hx
          subst hx
          rfl
        · rw [hc, hm]
          intro c hc'
          simp only [List.mem_singleton] at hc'
          subst hc'
          refine ⟨j, _, rfl, rfl, ?_⟩
          intro x hx
          simp only [List.mem_cons, List.mem_singleton, List.not_mem_nil, or_false] at hx
          rcases hx with rfl | rfl <;> rfl
        · rw [hc, hm]
          intro c hc'
          simp only [List.mem_singleton] at hc'
          subst hc'
          refine ⟨j, _, rfl, rfl, ?_⟩
          intro x hx
          simp only [List.mem_singleton] at hx
          subst hx
          rfl
    · rcases hcase with ⟨hm, -⟩ | ⟨j, hw, -, -, hsh⟩
      · rw [hm]; simp
      · have hnone := hw.2.2.2.1
        rcases hsh with ⟨hm, -, hj⟩ | ⟨-, hm, hj⟩ | ⟨msg, -, -, hm, hj⟩ | ⟨msg, -, -, hm, hj, -⟩
        · rw [hm]
          intro x hx hc
          simp only [List.mem_singleton] at hx
          subst hx
          exact absurd hnone hc
        · rw [hm, hj]
          intro x hx hc
          simp only [List.mem_cons, List.mem_singleton, List.not_mem_nil, or_false] at hx
          rcases hx with rfl | rfl | rfl
          · exact absurd hnone hc
          · exact absurd hnone hc
          · exact ⟨rfl, rfl, j, rfl, hnone⟩
        · rw [hm]
          intro x hx hc
          simp only [List.mem_cons, List.mem_singleton, List.not_mem_nil, or_false] at hx
          rcases hx with rfl | rfl | rfl | rfl <;> exact absurd hnone hc
        · rw [hm]
          intro x hx hc
          simp only [List.mem_cons, List.mem_singleton, List.not_mem_nil, or_false] at hx
          rcases hx with rfl | rfl | rfl <;> exact absurd hnone hc

theorem timestamps_over_lifecycle_witness :
    (earlyNormal.MarkStarted 1700000001000000000).StartedAt = some 1700000001000000000 ∧
    ∃ y, (alwaysSucceeds.processOne (defaultQueue.Enqueue Store.empty earlyNormal).2 "email"
        1700000001000000000 1700000001500000000).store.strings (defaultQueue.jobKey "job-b")
        = some (Blob.json y) ∧ y.CreatedAt = earlyNormal.CreatedAt :=
  ⟨((timestamps_over_lifecycle defaultQueue (defaultQueue.Enqueue Store.empty earlyNormal).2
      (Enqueue_consistent (Consistent_empty defaultQueue)
        (by intro k e he; simp [Store.empty] at he)
        ⟨by decide, by decide, by decide, rfl, Or.inl rfl⟩)).2.1
      earlyNormal 1700000001000000000).1,
    (timestamps_over_lifecycle defaultQueue (defaultQueue.Enqueue Store.empty earlyNormal).2
      (Enqueue_consistent (Consistent_empty defaultQueue)
        (by intro k e he; simp [Store.empty] at he)
        ⟨by decide, by decide, by decide, rfl, Or.inl rfl⟩)).1
      (defaultQueue.jobKey "job-b") earlyNormal _ (by decide)
      (Reach.step (Reach.refl _)
        ⟨alwaysSucceeds, "email", 1700000001000000000, 1700000001500000000, rfl, rfl⟩)⟩

end Taskflow
